import Mathlib

/-!
# Verification of the survey-note section codec, scanner and structure engine

Shallow embedding of the section-oriented markdown view (`src/view.ts`,
second view implementation: English section titles) of the
`obsidian-survey-note` plugin, together with proofs of the specified
properties.

Text is modelled as `List Char`.  JavaScript `String.prototype.trim` /
`split("\n")` / `startsWith` are embedded as executable Lean functions on
character lists.
-/

namespace SurveyNote

/-- Character-list model of a JavaScript string. -/
abbrev Str := List Char

/-- Whitespace characters recognised by `String.prototype.trim` (the ASCII
ones; the documents at stake are ASCII/BMP text). -/
def isWsChar (c : Char) : Bool :=
  c = ' ' || c = '\t' || c = '\n' || c = '\r' || c = '\x0b' || c = '\x0c'

/-- Drop trailing characters satisfying `p` (helper for `jsTrim`). -/
def dropRightWhileB (p : Char → Bool) (s : Str) : Str :=
  (s.reverse.dropWhile p).reverse

/-- JavaScript `s.trim()`: drop leading and trailing whitespace. -/
def jsTrim (s : Str) : Str :=
  dropRightWhileB isWsChar (s.dropWhile isWsChar)

/-- JavaScript `s.split("\n")`: split at every newline, keeping empty
pieces (`"".split("\n") = [""]`, `"a\n".split("\n") = ["a", ""]`). -/
def splitLines : Str → List Str
  | [] => [[]]
  | c :: rest =>
    if c = '\n' then [] :: splitLines rest
    else
      match splitLines rest with
      | [] => [[c]]
      | l :: ls => (c :: l) :: ls

/-- JavaScript `s.startsWith(p)`. -/
def jsStartsWith (s p : Str) : Bool :=
  p.isPrefixOf s

/-! ## Section codec (`SECTIONS`, `parseMarkdownContent`, `saveMarkdown`)

`src/view.ts` line 404: `SECTIONS = { BACKGROUND: "Purpose", SUMMARY:
"Summary", CONTENT1: "Content1", CONTENT2: "Content2", CONTENT3:
"Content3" }`. -/

/-- The five recognised section titles. -/
inductive Title where
  | purpose | summary | content1 | content2 | content3
deriving DecidableEq, Repr

/-- The title string of each section. -/
def titleStr : Title → Str
  | .purpose  => "Purpose".toList
  | .summary  => "Summary".toList
  | .content1 => "Content1".toList
  | .content2 => "Content2".toList
  | .content3 => "Content3".toList

/-- `Object.values(SECTIONS).sort((a, b) => b.length - a.length)`:
longest-first, JavaScript sort being stable on the declaration order
`[Purpose, Summary, Content1, Content2, Content3]` (lengths 7,7,8,8,8),
giving `[Content1, Content2, Content3, Purpose, Summary]`. -/
def sectionOrderLongestFirst : List Title :=
  [.content1, .content2, .content3, .purpose, .summary]

/-- Canonical emission order used by `saveMarkdown`:
`[BACKGROUND, SUMMARY, CONTENT1, CONTENT2, CONTENT3]`. -/
def canonicalOrder : List Title :=
  [.purpose, .summary, .content1, .content2, .content3]

/-- `Record<string, string>` restricted to the five recognised keys:
`none` models an absent key. -/
structure SMap where
  purpose  : Option Str
  summary  : Option Str
  content1 : Option Str
  content2 : Option Str
  content3 : Option Str
deriving DecidableEq, Repr

/-- The empty record `{}`. -/
def SMap.empty : SMap := ⟨none, none, none, none, none⟩

/-- Record lookup `sections[title]`. -/
def SMap.get (m : SMap) : Title → Option Str
  | .purpose  => m.purpose
  | .summary  => m.summary
  | .content1 => m.content1
  | .content2 => m.content2
  | .content3 => m.content3

/-- Record update `sections[title] = v`. -/
def SMap.set (m : SMap) : Title → Str → SMap
  | .purpose,  v => { m with purpose  := some v }
  | .summary,  v => { m with summary  := some v }
  | .content1, v => { m with content1 := some v }
  | .content2, v => { m with content2 := some v }
  | .content3, v => { m with content3 := some v }

/-- The heading text `"# " + title` tested by `parseMarkdownContent`. -/
def headingFor (t : Title) : Str :=
  '#' :: ' ' :: titleStr t

/-- The inner loop of `parseMarkdownContent`: the first title in
longest-first order whose heading prefixes the trimmed line
(`line.trim().startsWith("# " + sectionTitle)`). -/
def lineHeading (line : Str) : Option Title :=
  sectionOrderLongestFirst.find? fun t => jsStartsWith (jsTrim line) (headingFor t)

/-- One iteration of the `for (const line of lines)` loop of
`parseMarkdownContent`: on a heading, switch the current section and reset
its accumulator to `""`; otherwise, if inside a section, append
`line + "\n"`. -/
def parseStep (st : Option Title × SMap) (line : Str) : Option Title × SMap :=
  match lineHeading line with
  | some t => (some t, st.2.set t [])
  | none =>
    match st.1 with
    | some t => (some t, st.2.set t (((st.2.get t).getD []) ++ line ++ ['\n']))
    | none => st

/-- Trim every accumulated section value (`sections[key].trim()`). -/
def SMap.trimAll (m : SMap) : SMap :=
  ⟨m.purpose.map jsTrim, m.summary.map jsTrim, m.content1.map jsTrim,
   m.content2.map jsTrim, m.content3.map jsTrim⟩

/-- `parseMarkdownContent` (src/view.ts:2317-2344): split into lines, fold
the section cursor over them, then trim each section's accumulated text. -/
def parseMarkdownContent (content : Str) : SMap :=
  (((splitLines content).foldl parseStep (none, SMap.empty)).2).trimAll

/-- The block `"# " + title + "\n" + content.trim() + "\n\n"` emitted by
`saveMarkdown` for one non-empty section. -/
def sectionBlock (t : Title) (v : Str) : Str :=
  headingFor t ++ '\n' :: (jsTrim v ++ ['\n', '\n'])

/-- The `newSectionContent` accumulation loop of `saveMarkdown`
(src/view.ts:2377-2389): canonical order, skipping sections that are
undefined or whose trimmed content is empty. -/
def newSectionContent (m : SMap) : Str :=
  (canonicalOrder.map fun t =>
    match m.get t with
    | some v => if jsTrim v ≠ [] then sectionBlock t v else []
    | none => []).flatten

/-- The serialization step of `saveMarkdown` without frontmatter and
I/O: `finalContent = newSectionContent.trim()` (src/view.ts:2400). -/
def serializeSections (m : SMap) : Str :=
  jsTrim (newSectionContent m)

/-! ### Auxiliary notions for the round-trip proof -/

/-- Join a list of lines, appending a newline after each (the shape of a
section accumulator built by `parseMarkdownContent`). -/
def linesJoin (ls : List Str) : Str :=
  (ls.map fun l => l ++ ['\n']).flatten

/-- No line of `v` is recognised as a section heading. -/
def linesNonHeading (v : Str) : Prop :=
  ∀ l ∈ splitLines v, lineHeading l = none

/-- Normalisation of one record entry: keep the trimmed value if it is
non-empty, drop the entry otherwise. -/
def normVal : Option Str → Option Str
  | some v => if jsTrim v = [] then none else some (jsTrim v)
  | none => none

/-- Normalisation of a section record: trim every value and drop entries
whose trimmed value is empty.  `parseMarkdownContent ∘ serializeSections`
computes exactly this. -/
def SMap.norm (m : SMap) : SMap :=
  ⟨normVal m.purpose, normVal m.summary, normVal m.content1,
   normVal m.content2, normVal m.content3⟩

/-- The value of section `t`, defaulting to the empty string. -/
def vOf (m : SMap) (t : Title) : Str :=
  (m.get t).getD []

/-- The titles that `saveMarkdown` actually emits, in canonical order. -/
def emittedTitles (m : SMap) : List Title :=
  canonicalOrder.filter fun t =>
    match m.get t with
    | some v => !(jsTrim v).isEmpty
    | none => false

/-- The concatenation of the emitted blocks for the titles in `L`. -/
def blocksFor (m : SMap) (L : List Title) : Str :=
  (L.map fun t => sectionBlock t (vOf m t)).flatten

/-- The line sequence contributed by the blocks for the titles in `L`. -/
def linesFor (m : SMap) (L : List Title) : List Str :=
  L.flatMap fun t => headingFor t :: (splitLines (jsTrim (vOf m t)) ++ [[]])

/-- The record produced by registering, for each title in `L`, the
accumulated body `jsTrim (vOf m t) ++ "\n\n"`. -/
def setBlocks (m : SMap) (L : List Title) (m₀ : SMap) : SMap :=
  L.foldl (fun acc t => acc.set t (jsTrim (vOf m t) ++ ['\n', '\n'])) m₀

/-! ## List/checkbox structure engine (`parseListStructure`,
`toggleListCollapse`, `toggleCheckbox`, src/view.ts:1173-1243 and
2766-2930) -/

/-- The sentinel `<!--COLLAPSED-->`. -/
def collapsedMarker : Str := "<!--COLLAPSED-->".toList

/-- The sentinel `<!--HIDDEN-->`. -/
def hiddenMarker : Str := "<!--HIDDEN-->".toList

/-- JavaScript `s.includes(sub)`. -/
def containsStr (s sub : Str) : Bool :=
  match s with
  | [] => sub.isEmpty
  | _ :: rest => sub.isPrefixOf s || containsStr rest sub

/-- Fuel-indexed scanner behind `removeMarkers` (the fuel, always at
least the text length plus one, only forces structural termination). -/
def removeMarkersFuel : Nat → Str → Str
  | 0, s => s
  | _ + 1, [] => []
  | fuel + 1, c :: rest =>
    if collapsedMarker.isPrefixOf (c :: rest) then
      removeMarkersFuel fuel (rest.drop 15)
    else if hiddenMarker.isPrefixOf (c :: rest) then
      removeMarkersFuel fuel (rest.drop 12)
    else c :: removeMarkersFuel fuel rest

/-- `line.replace(/<!--(COLLAPSED|HIDDEN)-->/g, '')`: delete every
occurrence of either sentinel. -/
def removeMarkers (s : Str) : Str :=
  removeMarkersFuel (s.length + 1) s

/-- Fuel-indexed scanner behind `removeMarkerAll`. -/
def removeMarkerAllFuel (marker : Str) : Nat → Str → Str
  | 0, s => s
  | _ + 1, [] => []
  | fuel + 1, c :: rest =>
    if marker.isPrefixOf (c :: rest) then
      removeMarkerAllFuel marker fuel (rest.drop (marker.length - 1))
    else c :: removeMarkerAllFuel marker fuel rest

/-- `line.replace(marker-regex, '')` for a single sentinel `marker`
(used by `toggleListCollapse` for `/<!--COLLAPSED-->/g` and
`/<!--HIDDEN-->/g`). -/
def removeMarkerAll (marker : Str) (s : Str) : Str :=
  removeMarkerAllFuel marker (s.length + 1) s

/-- Does the text start with `"[ ] "` or `"[x] "`?  (The lookahead
`(?!\[[ x]\] )` of `listItemRegex`.) -/
def checkboxTail (s : Str) : Bool :=
  ("[ ] ".toList).isPrefixOf s || ("[x] ".toList).isPrefixOf s

/-- Single-line match of `/^(\s*)([-*])( +)(?!\[[ x]\] )/`: returns
`(indent length, match length)`.  The space run `( +)` is greedy but backs
off one space when the negative lookahead rejects the greedy split (the
regex can only succeed with the full run, or with the full run minus one
space, since after giving up one space the lookahead sees a space). -/
def lineListItemMatch (line : Str) : Option (Nat × Nat) :=
  let indent := line.takeWhile isWsChar
  let rest := line.drop indent.length
  match rest with
  | c :: rest2 =>
    if c = '-' || c = '*' then
      let n := (rest2.takeWhile (· = ' ')).length
      if n = 0 then none
      else if ¬ checkboxTail (rest2.drop n) then
        some (indent.length, indent.length + 1 + n)
      else if n ≥ 2 then some (indent.length, indent.length + 1 + (n - 1))
      else none
    else none
  | [] => none

/-- Single-line match of `/^(\s*)- (\[[ x]\]) /`: returns the indent
length. -/
def lineCheckboxMatch (line : Str) : Option Nat :=
  let indent := line.takeWhile isWsChar
  let rest := line.drop indent.length
  if ("- [ ] ".toList).isPrefixOf rest || ("- [x] ".toList).isPrefixOf rest then
    some indent.length
  else none

/-- One entry of `allListItems` in `parseListStructure`. -/
structure ListItem where
  lineIndex : Nat
  indentLevel : Nat
  isCollapsed : Bool
deriving DecidableEq, Repr

/-- First pass of `parseListStructure`: all list-item/checkbox lines with
their indentation (measured on the marker-stripped line) and collapsed
flag (read from the original line). -/
def allListItemsFrom (i : Nat) : List Str → List ListItem
  | [] => []
  | line :: rest =>
    let clean := removeMarkers line
    if (lineListItemMatch clean).isSome || (lineCheckboxMatch clean).isSome then
      let indentLevel :=
        match lineListItemMatch clean with
        | some (ind, _) => ind
        | none => (lineCheckboxMatch clean).getD 0
      ⟨i, indentLevel, containsStr line collapsedMarker⟩ :: allListItemsFrom (i + 1) rest
    else allListItemsFrom (i + 1) rest

/-- All list items of the text, in line order. -/
def allListItems (text : Str) : List ListItem :=
  allListItemsFrom 0 (splitLines text)

/-- The `hasChildren` forward scan of `parseListStructure`
(src/view.ts:1205-1214): walk the subsequent items; greater indentation
means children, lesser-or-equal means stop. -/
def scanHasChildren (cur : ListItem) : List ListItem → Bool
  | [] => false
  | nxt :: rest =>
    if nxt.indentLevel > cur.indentLevel then true
    else if nxt.indentLevel ≤ cur.indentLevel then false
    else scanHasChildren cur rest

/-- The `shouldHide` backward scan of `parseListStructure`
(src/view.ts:1217-1231): walk the preceding items (nearest first); a
strictly-lesser-indented collapsed item hides, a strictly-lesser-indented
item at indentation ≤ current − 2 stops the scan, and anything else is
skipped. -/
def scanShouldHide (cur : ListItem) : List ListItem → Bool
  | [] => false
  | p :: rest =>
    if p.indentLevel < cur.indentLevel then
      if p.isCollapsed then true
      else if (p.indentLevel : Int) ≤ (cur.indentLevel : Int) - 2 then false
      else scanShouldHide cur rest
    else scanShouldHide cur rest

/-- One entry of the structure map. -/
structure ListInfo where
  hasChildren : Bool
  isCollapsed : Bool
  shouldHide : Bool
deriving DecidableEq, Repr

/-- Second pass of `parseListStructure`: for each item, the forward scan
for `hasChildren` and the backward scan (over the reversed prefix) for
`shouldHide`. -/
def structurePass : List ListItem → List ListItem → List (Nat × ListInfo)
  | _, [] => []
  | prevRev, cur :: rest =>
    (cur.lineIndex,
      ⟨scanHasChildren cur rest, cur.isCollapsed, scanShouldHide cur prevRev⟩)
      :: structurePass (cur :: prevRev) rest

/-- `parseListStructure` (src/view.ts:1173-1243), as an association list
from line index to structure info. -/
def parseListStructure (text : Str) : List (Nat × ListInfo) :=
  structurePass [] (allListItems text)

/-! ### Structural toggles -/

/-- One entry of a CodeMirror `changes` array: replace `[efrom, eto)` of
the original document with `insert`. -/
structure EditChange where
  efrom : Nat
  eto : Nat
  insert : Str
deriving DecidableEq, Repr

/-- The character offset at which line `n` of `lines` starts (each earlier
line contributes its length plus one newline). -/
def lineStartOffset (lines : List Str) (n : Nat) : Nat :=
  ((lines.take n).map fun l => l.length + 1).sum

/-- Apply changes (sorted by position, non-overlapping, offsets into the
original text) to the text, as one transaction. -/
def applyChangesFrom (text : Str) (pos : Nat) : List EditChange → Str
  | [] => text.drop pos
  | c :: rest =>
    (text.drop pos).take (c.efrom - pos) ++ c.insert ++
      applyChangesFrom text c.eto rest

/-- Apply a transaction's changes to a document text. -/
def applyChanges (text : Str) (changes : List EditChange) : Str :=
  applyChangesFrom text 0 changes

/-- Join lines with newline separators (inverse of `splitLines`). -/
def joinNl : List Str → Str
  | [] => []
  | [l] => l
  | l :: ls => l ++ '\n' :: joinNl ls

/-- Full-line match of `/^(\s*)- (\[[ x]\]) (.*)$/`: returns
`(indent, checkbox state, content after the box)`. -/
def checkboxLineParse (line : Str) : Option (Str × Str × Str) :=
  let indent := line.takeWhile isWsChar
  let rest := line.drop indent.length
  if ("- [ ] ".toList).isPrefixOf rest then
    some (indent, "[ ]".toList, rest.drop 6)
  else if ("- [x] ".toList).isPrefixOf rest then
    some (indent, "[x]".toList, rest.drop 6)
  else none

/-- `toggleCheckbox` (src/view.ts:2883-2930): a line number past the end
is a silent no-op (`none` models "no dispatch"), a non-checkbox line is
also a no-op; otherwise the whole line is replaced by the line with the
box state set from the `isChecked` argument, as a single-range edit. -/
def toggleCheckbox (text : Str) (lineNumber : Nat) (isChecked : Bool) :
    Option EditChange :=
  let lines := splitLines text
  if lineNumber ≥ lines.length then none
  else
    let line := lines.getD lineNumber []
    match checkboxLineParse line with
    | none => none
    | some (indent, _, content) =>
      let newState := if isChecked then "[ ]".toList else "[x]".toList
      let newLineContent := indent ++ "- ".toList ++ newState ++ ' ' :: content
      let lineStart := lineStartOffset lines lineNumber
      some ⟨lineStart, lineStart + line.length, newLineContent⟩

/-- The `([-*]\s+|.*)` group of `toggleListCollapse`'s per-line match,
applied to the text after the leading whitespace: a bullet followed by at
least one whitespace captures the bullet plus the whitespace run,
otherwise the whole remainder. -/
def restOfLineOf (after : Str) : Str :=
  match after with
  | c :: d :: rest3 =>
    if (c = '-' || c = '*') && isWsChar d then
      c :: (d :: rest3).takeWhile isWsChar
    else after
  | _ => after

/-- Does the text match `/^[-*]\s+/`? -/
def isBulletStart (s : Str) : Bool :=
  match s with
  | c :: d :: _ => (c = '-' || c = '*') && isWsChar d
  | _ => false

/-- The parent-line rewrite of `toggleListCollapse`: add the `COLLAPSED`
sentinel when collapsing (unless already present), strip all of them when
expanding. -/
def collapsedEdit (newCollapsedState : Bool) (line : Str) : Str :=
  if newCollapsedState then
    if containsStr line collapsedMarker then line else line ++ collapsedMarker
  else removeMarkerAll collapsedMarker line

/-- The child-line rewrite of `toggleListCollapse`: add the `HIDDEN`
sentinel when collapsing (unless already present), strip all of them when
expanding. -/
def hiddenEdit (newCollapsedState : Bool) (line : Str) : Str :=
  if newCollapsedState then
    if containsStr line hiddenMarker then line else line ++ hiddenMarker
  else removeMarkerAll hiddenMarker line

/-- The child-collection loop of `toggleListCollapse`
(src/view.ts:2819-2865), over the lines after the toggled one: a nonblank
line at strictly greater indentation gets the `HIDDEN` edit, a list-item
line at lesser-or-equal indentation stops the loop, and every other line
is skipped. -/
def collapseChildLoop (newCollapsedState : Bool) (p : Nat) :
    List Str → Nat → List EditChange
  | [], _ => []
  | line :: rest, lineStart =>
    let lineEnd := lineStart + line.length
    let indentLen := (line.takeWhile isWsChar).length
    let restOfLine := restOfLineOf (line.drop indentLen)
    if indentLen > p ∧ jsTrim restOfLine ≠ [] then
      let isChild := !(isBulletStart restOfLine && decide (indentLen ≤ p))
      if isChild then
        ⟨lineStart, lineEnd, hiddenEdit newCollapsedState line⟩ ::
          collapseChildLoop newCollapsedState p rest (lineEnd + 1)
      else collapseChildLoop newCollapsedState p rest (lineEnd + 1)
    else if indentLen ≤ p ∧ isBulletStart restOfLine then []
    else collapseChildLoop newCollapsedState p rest (lineEnd + 1)

/-- `toggleListCollapse` (src/view.ts:2766-2881): a line number past the
end is a silent no-op; otherwise one transaction rewrites the toggled line
with the `COLLAPSED` sentinel and each collected child line with the
`HIDDEN` sentinel. -/
def toggleListCollapse (text : Str) (lineNumber : Nat) (isCollapsed : Bool) :
    Option (List EditChange) :=
  let lines := splitLines text
  if lineNumber ≥ lines.length then none
  else
    let newCollapsedState := !isCollapsed
    let parentLine := lines.getD lineNumber []
    let parentIndentLevel := (parentLine.takeWhile isWsChar).length
    let parentStart := lineStartOffset lines lineNumber
    some (⟨parentStart, parentStart + parentLine.length,
            collapsedEdit newCollapsedState parentLine⟩ ::
      collapseChildLoop newCollapsedState parentIndentLevel
        (lines.drop (lineNumber + 1)) (parentStart + parentLine.length + 1))

/-- Each line of `ls` paired with its start offset when the text is laid
out from `start` with newline separators. -/
def withOffsets (start : Nat) : List Str → List (Nat × Str)
  | [] => []
  | l :: ls => (start, l) :: withOffsets (start + l.length + 1) ls

/-! ## The inline syntax scanner (`scanForLinks`, src/view.ts:1245-1815)

Decorations are modelled by their range, style (`replace` widgets versus
`mark` styling) and the construct that produced them; widget payloads
(image paths, URLs, code text, sizes) do not affect ranges or styles and
are not modelled. -/

/-- The style of a decoration: a `Decoration.replace` widget or a
`Decoration.mark`. -/
inductive DecorationStyle where
  | replace | mark
deriving DecidableEq, Repr

/-- Which scanner pass produced a decoration. -/
inductive DecorationKind where
  | hiddenLine | codeBlock | codeBlockEditing | collapseMarker
  | listBullet | checkbox | multiImage | multiImageEditing
  | internalImage | internalImageEditing | markdownImage
  | markdownImageEditing | internalLink | markdownLink
  | markdownLinkEditing | urlLink
deriving DecidableEq, Repr

/-- One decoration range `[dfrom, dto)`. -/
structure Deco where
  dfrom : Nat
  dto : Nat
  style : DecorationStyle
  kind : DecorationKind
deriving DecidableEq, Repr

/-- The cursor-adjacency test used by every pass: either selection end
lies within `[f, t]` inclusive, or the selection contains the range. -/
def cursorInRange (sel : Option (Nat × Nat)) (f t : Nat) : Bool :=
  match sel with
  | none => false
  | some (sf, st) =>
    (decide (sf ≥ f) && decide (sf ≤ t)) ||
    (decide (st ≥ f) && decide (st ≤ t)) ||
    (decide (sf ≤ f) && decide (st ≥ t))

/-- The three-disjunct range-overlap test used by the bullet and checkbox
passes. -/
def jsOverlaps (f t rf rt : Nat) : Bool :=
  (decide (f ≥ rf) && decide (f < rt)) ||
  (decide (t > rf) && decide (t ≤ rt)) ||
  (decide (f ≤ rf) && decide (t ≥ rt))

/-- JavaScript `\w` (ASCII word character). -/
def isWordChar (c : Char) : Bool :=
  ('a' ≤ c && c ≤ 'z') || ('A' ≤ c && c ≤ 'Z') || ('0' ≤ c && c ≤ '9') || c = '_'

/-- The hidden-line pass (src/view.ts:1264-1298): every line whose
structure entry says `shouldHide` is covered whole, including its trailing
newline unless it is the last line. -/
def hiddenPass (lstruct : List (Nat × ListInfo)) :
    List Str → Nat → Nat → List (Nat × Nat)
  | [], _, _ => []
  | line :: rest, i, lineStart =>
    let lineEnd := lineStart + line.length
    let cur :=
      match lstruct.lookup i with
      | some info =>
        if info.shouldHide then
          [(lineStart, if rest.isEmpty then lineEnd else lineEnd + 1)]
        else []
      | none => []
    cur ++ hiddenPass lstruct rest (i + 1) (lineEnd + 1)

/-- The lazy search for the closing fence of `codeBlockRegex`: the least
offset at which `"\n```"` (the greedy optional newline first) or
`"```"` begins; returns the number of characters consumed from the body
start through the closing fence. -/
def lazyClose : Str → Option Nat
  | [] => none
  | c :: rest =>
    if ('\n' :: '`' :: '`' :: '`' :: []).isPrefixOf (c :: rest) then some 4
    else if ('`' :: '`' :: '`' :: []).isPrefixOf (c :: rest) then some 3
    else (lazyClose rest).map (· + 1)

/-- Match `/```(\w*)\n?([\s\S]*?)\n?```/` anchored at the start of `s`:
returns the length of the whole match. -/
def matchCodeBlock (s : Str) : Option Nat :=
  if ('`' :: '`' :: '`' :: []).isPrefixOf s then
    let afterTicks := s.drop 3
    let lang := afterTicks.takeWhile isWordChar
    let rest2 := afterTicks.drop lang.length
    match rest2 with
    | '\n' :: rest3 =>
      match lazyClose rest3 with
      | some k => some (3 + lang.length + 1 + k)
      | none => (lazyClose rest2).map (fun k => 3 + lang.length + k)
    | _ => (lazyClose rest2).map (fun k => 3 + lang.length + k)
  else none

/-- Match `/<!--(COLLAPSED|HIDDEN)-->/` anchored at the start of `s`. -/
def markerMatcher (s : Str) : Option Nat :=
  if collapsedMarker.isPrefixOf s then some 16
  else if hiddenMarker.isPrefixOf s then some 13
  else none

/-- Match `/^(\s*)([-*])( +)(?!\[[ x]\] )/` anchored at a line-start
position (the `\s*` may span newlines). -/
def listItemMatcher (s : Str) : Option Nat :=
  let ws := s.takeWhile isWsChar
  let rest := s.drop ws.length
  match rest with
  | c :: rest2 =>
    if c = '-' || c = '*' then
      let n := (rest2.takeWhile (· = ' ')).length
      if n = 0 then none
      else if ¬ checkboxTail (rest2.drop n) then some (ws.length + 1 + n)
      else if n ≥ 2 then some (ws.length + 1 + (n - 1))
      else none
    else none
  | [] => none

/-- Match `/^(\s*)- (\[[ x]\]) /` anchored at a line-start position. -/
def checkboxMatcher (s : Str) : Option Nat :=
  let ws := s.takeWhile isWsChar
  let rest := s.drop ws.length
  if ("- [ ] ".toList).isPrefixOf rest || ("- [x] ".toList).isPrefixOf rest then
    some (ws.length + 6)
  else none

/-- Match `/!\[\[([^\]]+)\]\]/` anchored at the start of `s`. -/
def internalImageMatcher (s : Str) : Option Nat :=
  if ('!' :: '[' :: '[' :: []).isPrefixOf s then
    let inner := (s.drop 3).takeWhile (· ≠ ']')
    if inner.length = 0 then none
    else if (']' :: ']' :: []).isPrefixOf ((s.drop 3).drop inner.length) then
      some (3 + inner.length + 2)
    else none
  else none

/-- Match `/!\[([^\]]*)\]\(([^)]+)\)/` anchored at the start of `s`. -/
def markdownImageMatcher (s : Str) : Option Nat :=
  if ('!' :: '[' :: []).isPrefixOf s then
    let alt := (s.drop 2).takeWhile (· ≠ ']')
    match (s.drop 2).drop alt.length with
    | ']' :: '(' :: r2 =>
      let url := r2.takeWhile (· ≠ ')')
      if url.length = 0 then none
      else
        match r2.drop url.length with
        | ')' :: _ => some (2 + alt.length + 2 + url.length + 1)
        | _ => none
    | _ => none
  else none

/-- Match `/\[\[([^\]]+)\]\]/` anchored at the start of `s`. -/
def internalLinkMatcher (s : Str) : Option Nat :=
  if ('[' :: '[' :: []).isPrefixOf s then
    let inner := (s.drop 2).takeWhile (· ≠ ']')
    if inner.length = 0 then none
    else if (']' :: ']' :: []).isPrefixOf ((s.drop 2).drop inner.length) then
      some (2 + inner.length + 2)
    else none
  else none

/-- Match `/\[([^\]]+)\]\(([^)]+)\)/` anchored at the start of `s`. -/
def markdownLinkMatcher (s : Str) : Option Nat :=
  match s with
  | '[' :: r0 =>
    let txt := r0.takeWhile (· ≠ ']')
    if txt.length = 0 then none
    else
      match r0.drop txt.length with
      | ']' :: '(' :: r2 =>
        let url := r2.takeWhile (· ≠ ')')
        if url.length = 0 then none
        else
          match r2.drop url.length with
          | ')' :: _ => some (1 + txt.length + 2 + url.length + 1)
          | _ => none
      | _ => none
  | _ => none

/-- Match `/(https?:\/\/[^\s]+)/` anchored at the start of `s`. -/
def urlMatcher (s : Str) : Option Nat :=
  let k : Option Nat :=
    if ("https://".toList).isPrefixOf s then some 8
    else if ("http://".toList).isPrefixOf s then some 7
    else none
  match k with
  | some k =>
    let tailLen := ((s.drop k).takeWhile (fun c => !isWsChar c)).length
    if tailLen = 0 then none else some (k + tailLen)
  | none => none

/-- Global `regex.exec` loop (no `m` flag): repeatedly find the leftmost
match at or after the current position and continue after it.  The fuel
(text length + 1) only forces structural termination; every match is
non-empty. -/
def execScanFuel (matcher : Str → Option Nat) :
    Nat → Str → Nat → List (Nat × Nat)
  | 0, _, _ => []
  | _ + 1, [], _ => []
  | fuel + 1, c :: rest, pos =>
    match matcher (c :: rest) with
    | some len =>
      if len = 0 then []
      else (pos, pos + len) :: execScanFuel matcher fuel ((c :: rest).drop len) (pos + len)
    | none => execScanFuel matcher fuel rest (pos + 1)

/-- All matches of a global regex over the text. -/
def execScanAll (matcher : Str → Option Nat) (text : Str) : List (Nat × Nat) :=
  execScanFuel matcher (text.length + 1) text 0

/-- Global `regex.exec` loop with the `m` flag: matches are only attempted
at position 0 or just after a newline. -/
def execScanLinesFuel (matcher : Str → Option Nat) :
    Nat → Str → Nat → Bool → List (Nat × Nat)
  | 0, _, _, _ => []
  | _ + 1, [], _, _ => []
  | fuel + 1, c :: rest, pos, atStart =>
    if atStart then
      match matcher (c :: rest) with
      | some len =>
        if len = 0 then []
        else
          (pos, pos + len) ::
            execScanLinesFuel matcher fuel ((c :: rest).drop len) (pos + len)
              (((c :: rest).take len).getLast? = some '\n')
      | none => execScanLinesFuel matcher fuel rest (pos + 1) (c = '\n')
    else execScanLinesFuel matcher fuel rest (pos + 1) (c = '\n')

/-- All matches of a global multiline (`^`-anchored) regex over the text. -/
def execScanLines (matcher : Str → Option Nat) (text : Str) : List (Nat × Nat) :=
  execScanLinesFuel matcher (text.length + 1) text 0 true

/-- The line index containing offset `f` (first line whose
`[lineStart, lineEnd]` contains it, `0` when none does), as computed by
the per-match loops of `scanForLinks`. -/
def lineNumberOfAux : List Str → Nat → Nat → Nat → Option Nat
  | [], _, _, _ => none
  | line :: rest, i, lineStart, f =>
    let lineEnd := lineStart + line.length
    if f ≥ lineStart ∧ f ≤ lineEnd then some i
    else lineNumberOfAux rest (i + 1) (lineEnd + 1) f

/-- The line number attributed to a match starting at offset `f`. -/
def lineNumberOf (lines : List Str) (f : Nat) : Nat :=
  (lineNumberOfAux lines 0 0 f).getD 0

/-- The bullet pass (src/view.ts:1368-1425): every `listItemRegex` match
whose line is not hidden and whose range does not overlap a hidden-line
range becomes a replace widget. -/
def listBulletDecos (lstruct : List (Nat × ListInfo)) (lines : List Str)
    (hiddenRanges : List (Nat × Nat)) (ms : List (Nat × Nat)) : List Deco :=
  ms.filterMap fun r =>
    let info := (lstruct.lookup (lineNumberOf lines r.1)).getD ⟨false, false, false⟩
    let overlapsWithHidden :=
      hiddenRanges.any fun q => jsOverlaps r.1 r.2 q.1 q.2
    if info.shouldHide || overlapsWithHidden then none
    else some ⟨r.1, r.2, .replace, .listBullet⟩

/-- The checkbox pass (src/view.ts:1428-1483): every `checkboxRegex` match
not overlapping a hidden-line range becomes a replace widget. -/
def checkboxDecos (hiddenRanges : List (Nat × Nat))
    (ms : List (Nat × Nat)) : List Deco :=
  ms.filterMap fun r =>
    let overlapsWithHidden :=
      hiddenRanges.any fun q => jsOverlaps r.1 r.2 q.1 q.2
    if overlapsWithHidden then none
    else some ⟨r.1, r.2, .replace, .checkbox⟩

/-- The multi-image pass (src/view.ts:1490-1565): a line containing more
than one image reference becomes one whole-line decoration and a
processed range. -/
def multiImagePass (sel : Option (Nat × Nat)) :
    List (Nat × Str) → List (Deco × (Nat × Nat))
  | [] => []
  | ol :: rest =>
    let total := (execScanAll internalImageMatcher ol.2).length +
      (execScanAll markdownImageMatcher ol.2).length
    let lineEnd := ol.1 + ol.2.length
    let cur :=
      if total > 1 then
        if cursorInRange sel ol.1 lineEnd then
          [(⟨ol.1, lineEnd, .mark, .multiImageEditing⟩, (ol.1, lineEnd))]
        else [(⟨ol.1, lineEnd, .replace, .multiImage⟩, (ol.1, lineEnd))]
      else []
    cur ++ multiImagePass sel rest

/-- The whole-text matches of an image pass that survive the
processed-range (multi-image) skip. -/
def imagesOutsideProcessed (processed : List (Nat × Nat))
    (ms : List (Nat × Nat)) : List (Nat × Nat) :=
  ms.filter fun r =>
    !(processed.any fun pr => decide (r.1 ≥ pr.1) && decide (r.2 ≤ pr.2))

/-- Cursor-dependent rendering of an image pass. -/
def imageDecos (sel : Option (Nat × Nat)) (editingKind widgetKind : DecorationKind)
    (kept : List (Nat × Nat)) : List Deco :=
  kept.map fun r =>
    if cursorInRange sel r.1 r.2 then ⟨r.1, r.2, .mark, editingKind⟩
    else ⟨r.1, r.2, .replace, widgetKind⟩

/-- The internal-link pass (src/view.ts:1677-1714): a mark, skipped when
it overlaps an image, code-block, list-item or checkbox range. -/
def internalLinkDecos (special : List (Nat × Nat))
    (ms : List (Nat × Nat)) : List Deco :=
  ms.filterMap fun r =>
    if special.any (fun q => jsOverlaps r.1 r.2 q.1 q.2) then none
    else some ⟨r.1, r.2, .mark, .internalLink⟩

/-- The markdown-link pass (src/view.ts:1716-1756). -/
def markdownLinkDecos (sel : Option (Nat × Nat))
    (ms : List (Nat × Nat)) : List Deco :=
  ms.map fun r =>
    if cursorInRange sel r.1 r.2 then ⟨r.1, r.2, .mark, .markdownLinkEditing⟩
    else ⟨r.1, r.2, .replace, .markdownLink⟩

/-- The bare-URL pass (src/view.ts:1758-1808): a mark, skipped when its
start offset lies inside any excluded range. -/
def urlDecos (excluded : List (Nat × Nat)) (ms : List (Nat × Nat)) :
    List Deco :=
  ms.filterMap fun r =>
    if excluded.any (fun q => decide (q.1 ≤ r.1) && decide (r.1 < q.2)) then none
    else some ⟨r.1, r.2, .mark, .urlLink⟩

/-- The concatenation of all scanner passes of `scanForLinks`, in program
order, before the final sort. -/
def scanPasses (text : Str) (sel : Option (Nat × Nat)) : List Deco :=
  let lstruct := parseListStructure text
  let lines := splitLines text
  let hiddenRanges := hiddenPass lstruct lines 0 0
  let codeBlockRanges := execScanAll matchCodeBlock text
  let listItemRanges := execScanLines listItemMatcher text
  let checkboxRanges := execScanLines checkboxMatcher text
  let multi := multiImagePass sel (withOffsets 0 lines)
  let processed := multi.map (·.2)
  let internalImagesKept :=
    imagesOutsideProcessed processed (execScanAll internalImageMatcher text)
  let markdownImagesKept :=
    imagesOutsideProcessed processed (execScanAll markdownImageMatcher text)
  let imageRanges := internalImagesKept ++ markdownImagesKept
  let markdownLinkRanges := execScanAll markdownLinkMatcher text
  ((hiddenRanges.map fun r => (⟨r.1, r.2, .replace, .hiddenLine⟩ : Deco)) ++
   (codeBlockRanges.map fun r =>
     if cursorInRange sel r.1 r.2 then (⟨r.1, r.2, .mark, .codeBlockEditing⟩ : Deco)
     else (⟨r.1, r.2, .replace, .codeBlock⟩ : Deco)) ++
   ((execScanAll markerMatcher text).map fun r =>
     (⟨r.1, r.2, .replace, .collapseMarker⟩ : Deco)) ++
   listBulletDecos lstruct lines hiddenRanges listItemRanges ++
   checkboxDecos hiddenRanges checkboxRanges ++
   multi.map (·.1) ++
   imageDecos sel .internalImageEditing .internalImage internalImagesKept ++
   imageDecos sel .markdownImageEditing .markdownImage markdownImagesKept ++
   internalLinkDecos
     (imageRanges ++ codeBlockRanges ++ listItemRanges ++ checkboxRanges)
     (execScanAll internalLinkMatcher text) ++
   markdownLinkDecos sel markdownLinkRanges ++
   urlDecos
     (markdownLinkRanges ++ imageRanges ++ codeBlockRanges ++
       listItemRanges ++ checkboxRanges)
     (execScanAll urlMatcher text))

/-- `scanForLinks` (src/view.ts:1245-1815): all passes in program order,
then the final sort by start offset (`newDecorations.sort((a, b) =>
a.from - b.from)`).  `Array.prototype.sort` is stable, so it is modelled
by a stable sort with respect to `a.from ≤ b.from`; any two stable sorts
agree, so insertion sort is used.  The `collapseStates` map only selects
the rendered widget's collapsed visual for code blocks and does not
affect ranges or styles or the set of decorations. -/
def scanForLinks (text : Str) (sel : Option (Nat × Nat))
    (_collapseStates : List (Nat × Bool)) : List Deco :=
  List.insertionSort (fun a b => a.dfrom ≤ b.dfrom) (scanPasses text sel)

/-! ## The save path (`saveMarkdown`, src/view.ts:2372-2409)

`saveMarkdown` is `async`: it checks `!this.file || this.isUpdating` and
returns at once if either holds, sets `isUpdating`, serializes the
sections synchronously, suspends at `await this.app.vault.read(...)`,
compares old and new content, suspends at `await this.app.vault.modify(...)`
only when they differ, and clears `isUpdating` in the `finally` block.
The control flow is embedded as a transition system whose states carry
the flag and the phases of the in-flight invocations (suspension points),
and whose events are a new save request and the completion of each await;
the content comparison is abstracted into the Boolean outcome `changed`
of the read. -/

/-- The suspension point an in-flight `saveMarkdown` invocation is parked
at: the awaited vault read, or the awaited vault write. -/
inductive SavePhase where
  | reading | writing
deriving DecidableEq, Repr

/-- The view state relevant to saving: the `isUpdating` flag and the
in-flight invocations with their phases. -/
structure SaveState where
  isUpdating : Bool
  tasks : List SavePhase
deriving DecidableEq, Repr

/-- The events of the save transition system: a call to `saveMarkdown`
(with or without a bound file), the completion of the read awaited by
invocation `i` (`changed` abstracts `originalContent.trim() !==
finalContent.trim()`), and the completion of the write awaited by
invocation `i`. -/
inductive SaveEvent where
  | invoke (hasFile : Bool)
  | readDone (i : Nat) (changed : Bool)
  | writeDone (i : Nat)
deriving DecidableEq, Repr

/-- One step of the save transition system, mirroring `saveMarkdown`:
a request finding no file or `isUpdating` set returns immediately and
changes nothing; otherwise the flag is set and the invocation suspends at
the read.  A finished read either proceeds to the write (content differs)
or completes, clearing the flag in `finally`; a finished write completes
and clears the flag. -/
def saveStep (s : SaveState) (e : SaveEvent) : SaveState :=
  match e with
  | .invoke hasFile =>
    if !hasFile || s.isUpdating then s
    else ⟨true, .reading :: s.tasks⟩
  | .readDone i changed =>
    match s.tasks[i]? with
    | some .reading =>
      if changed then ⟨s.isUpdating, s.tasks.set i .writing⟩
      else ⟨false, s.tasks.eraseIdx i⟩
    | _ => s
  | .writeDone i =>
    match s.tasks[i]? with
    | some .writing => ⟨false, s.tasks.eraseIdx i⟩
    | _ => s

/-- The initial state: flag clear, nothing in flight. -/
def saveInit : SaveState := ⟨false, []⟩

/-- The state reached from the initial state by a sequence of events. -/
def saveRun (es : List SaveEvent) : SaveState :=
  es.foldl saveStep saveInit

/-- The mutual-exclusion invariant: at most one invocation is in flight,
and the `isUpdating` flag is set exactly while one is. -/
def SaveInv (s : SaveState) : Prop :=
  s.tasks.length ≤ 1 ∧ (s.isUpdating = true ↔ s.tasks ≠ [])

/-! ## Lemmas about `splitLines` -/

theorem splitLines_ne_nil (s : Str) : splitLines s ≠ [] := by
  cases s with
  | nil => simp [splitLines]
  | cons c rest =>
    simp only [splitLines]
    by_cases hc : c = '\n'
    · simp [hc]
    · simp only [if_neg hc]
      cases splitLines rest <;> simp

theorem splitLines_cons_newline (rest : Str) :
    splitLines ('\n' :: rest) = [] :: splitLines rest := by
  simp [splitLines]

theorem splitLines_cons_of_ne {c : Char} (rest : Str) (hc : c ≠ '\n') :
    splitLines (c :: rest) =
      (c :: (splitLines rest).headD []) :: (splitLines rest).tail := by
  simp only [splitLines, if_neg hc]
  cases h : splitLines rest with
  | nil => exact absurd h (splitLines_ne_nil rest)
  | cons l ls => simp

theorem splitLines_append_newline (a b : Str) :
    splitLines (a ++ '\n' :: b) = splitLines a ++ splitLines b := by
  induction a with
  | nil => simp [splitLines]
  | cons c a ih =>
    by_cases hc : c = '\n'
    · subst hc
      simp [splitLines, ih]
    · rw [List.cons_append, splitLines_cons_of_ne _ hc, splitLines_cons_of_ne _ hc, ih]
      cases h : splitLines a with
      | nil => exact absurd h (splitLines_ne_nil a)
      | cons l ls => simp

theorem splitLines_of_not_mem_newline {l : Str} (h : '\n' ∉ l) :
    splitLines l = [l] := by
  induction l with
  | nil => simp [splitLines]
  | cons c rest ih =>
    have hc : c ≠ '\n' := fun he => h (he ▸ List.mem_cons_self c rest)
    rw [splitLines_cons_of_ne _ hc, ih (fun hm => h (List.mem_cons_of_mem c hm))]
    simp

theorem headD_splitLines_mem (s : Str) :
    (splitLines s).headD [] ∈ splitLines s := by
  cases h : splitLines s with
  | nil => exact absurd h (splitLines_ne_nil s)
  | cons x xs => simp

theorem mem_splitLines_of_mem_tail {l : Str} {s : Str}
    (hl : l ∈ (splitLines s).tail) : l ∈ splitLines s := by
  cases h : splitLines s with
  | nil => exact absurd h (splitLines_ne_nil s)
  | cons x xs =>
    rw [h] at hl
    exact List.mem_cons_of_mem _ hl

theorem mem_of_mem_splitLines {c : Char} {l s : Str}
    (hl : l ∈ splitLines s) (hc : c ∈ l) : c ∈ s := by
  induction s generalizing l with
  | nil =>
    simp [splitLines] at hl
    subst hl
    exact absurd hc (List.not_mem_nil c)
  | cons d rest ih =>
    by_cases hd : d = '\n'
    · subst hd
      rw [splitLines_cons_newline] at hl
      cases List.mem_cons.1 hl with
      | inl h =>
        subst h
        exact absurd hc (List.not_mem_nil c)
      | inr h => exact List.mem_cons_of_mem _ (ih h hc)
    · rw [splitLines_cons_of_ne _ hd] at hl
      cases List.mem_cons.1 hl with
      | inl h =>
        subst h
        cases List.mem_cons.1 hc with
        | inl h2 =>
          subst h2
          exact List.mem_cons_self _ _
        | inr h2 =>
          exact List.mem_cons_of_mem _ (ih (headD_splitLines_mem rest) h2)
      | inr h =>
        exact List.mem_cons_of_mem _ (ih (mem_splitLines_of_mem_tail h) hc)

theorem not_newline_mem_of_mem_splitLines {l s : Str}
    (hl : l ∈ splitLines s) : '\n' ∉ l := by
  induction s generalizing l with
  | nil =>
    simp [splitLines] at hl
    subst hl
    exact List.not_mem_nil _
  | cons d rest ih =>
    by_cases hd : d = '\n'
    · subst hd
      rw [splitLines_cons_newline] at hl
      cases List.mem_cons.1 hl with
      | inl h =>
        subst h
        exact List.not_mem_nil _
      | inr h => exact ih h
    · rw [splitLines_cons_of_ne _ hd] at hl
      cases List.mem_cons.1 hl with
      | inl h =>
        subst h
        intro hmem
        cases List.mem_cons.1 hmem with
        | inl h2 => exact hd h2.symm
        | inr h2 => exact ih (headD_splitLines_mem rest) h2
      | inr h => exact ih (mem_splitLines_of_mem_tail h)

theorem linesJoin_append (a b : List Str) :
    linesJoin (a ++ b) = linesJoin a ++ linesJoin b := by
  simp [linesJoin]

theorem linesJoin_splitLines (v : Str) :
    linesJoin (splitLines v) = v ++ ['\n'] := by
  induction v with
  | nil => simp [splitLines, linesJoin]
  | cons c rest ih =>
    by_cases hc : c = '\n'
    · subst hc
      rw [splitLines_cons_newline,
        show ([] : Str) :: splitLines rest = [[]] ++ splitLines rest from rfl,
        linesJoin_append, ih]
      simp [linesJoin]
    · rw [splitLines_cons_of_ne _ hc]
      cases h : splitLines rest with
      | nil => exact absurd h (splitLines_ne_nil rest)
      | cons l ls =>
        rw [h] at ih
        simp only [List.headD_cons, List.tail_cons]
        have h2 : linesJoin ((c :: l) :: ls) = c :: linesJoin (l :: ls) := by
          simp [linesJoin]
        rw [h2, ih]
        simp

/-! ## Lemmas about `jsTrim` -/

theorem head?_dropWhile_not (p : Char → Bool) (l : Str) {c : Char}
    (h : (l.dropWhile p).head? = some c) : p c = false := by
  induction l with
  | nil => simp at h
  | cons d rest ih =>
    rw [List.dropWhile_cons] at h
    by_cases hd : p d = true
    · exact ih (by rwa [if_pos hd] at h)
    · rw [if_neg hd] at h
      simp at h
      subst h
      exact Bool.not_eq_true _ ▸ (by simpa using hd)

theorem dropRightWhileB_prefix (p : Char → Bool) (s : Str) :
    dropRightWhileB p s <+: s := by
  have h := List.dropWhile_suffix (l := s.reverse) p
  have h2 := h.reverse
  rwa [List.reverse_reverse] at h2

theorem IsPrefix.head?_eq {α : Type _} {l₁ l₂ : List α}
    (h : l₁ <+: l₂) (hne : l₁ ≠ []) : l₂.head? = l₁.head? := by
  obtain ⟨t, rfl⟩ := h
  cases l₁ with
  | nil => exact absurd rfl hne
  | cons a l => simp

theorem getLast?_dropRightWhileB (p : Char → Bool) (s : Str) {c : Char}
    (h : (dropRightWhileB p s).getLast? = some c) : p c = false := by
  unfold dropRightWhileB at h
  rw [List.getLast?_reverse] at h
  exact head?_dropWhile_not p s.reverse h

theorem dropWhile_append_of_all (p : Char → Bool) {w y : Str}
    (h : ∀ c ∈ w, p c) : (w ++ y).dropWhile p = y.dropWhile p := by
  induction w with
  | nil => simp
  | cons d rest ih =>
    rw [List.cons_append, List.dropWhile_cons,
      if_pos (h d (List.mem_cons_self d rest))]
    exact ih fun c hc => h c (List.mem_cons_of_mem d hc)

theorem dropRightWhileB_append_of_all (p : Char → Bool) {v w : Str}
    (h : ∀ c ∈ w, p c) : dropRightWhileB p (v ++ w) = dropRightWhileB p v := by
  unfold dropRightWhileB
  rw [List.reverse_append, dropWhile_append_of_all p
    (fun c hc => h c (List.mem_reverse.1 hc))]

theorem dropWhile_eq_self_of_head (p : Char → Bool) (l : Str)
    (h : ∀ c, l.head? = some c → p c = false) : l.dropWhile p = l := by
  cases l with
  | nil => simp
  | cons d rest =>
    rw [List.dropWhile_cons, if_neg]
    simp [h d rfl]

theorem dropRightWhileB_eq_self_of_getLast (p : Char → Bool) (l : Str)
    (h : ∀ c, l.getLast? = some c → p c = false) : dropRightWhileB p l = l := by
  unfold dropRightWhileB
  rw [dropWhile_eq_self_of_head p l.reverse
    (fun c hc => h c ((List.head?_reverse l) ▸ hc)), List.reverse_reverse]

theorem jsTrim_nil : jsTrim [] = [] := by
  simp [jsTrim, dropRightWhileB]

theorem head?_jsTrim_not_ws {s : Str} {c : Char}
    (h : (jsTrim s).head? = some c) : isWsChar c = false := by
  unfold jsTrim at h
  have hpre := dropRightWhileB_prefix isWsChar (s.dropWhile isWsChar)
  have hne : dropRightWhileB isWsChar (s.dropWhile isWsChar) ≠ [] := by
    intro he
    rw [he] at h
    simp at h
  rw [← IsPrefix.head?_eq hpre hne] at h
  exact head?_dropWhile_not isWsChar s h

theorem getLast?_jsTrim_not_ws {s : Str} {c : Char}
    (h : (jsTrim s).getLast? = some c) : isWsChar c = false := by
  exact getLast?_dropRightWhileB isWsChar _ h

theorem jsTrim_eq_self (l : Str)
    (hh : ∀ c, l.head? = some c → isWsChar c = false)
    (hl : ∀ c, l.getLast? = some c → isWsChar c = false) : jsTrim l = l := by
  unfold jsTrim
  rw [dropWhile_eq_self_of_head _ _ hh, dropRightWhileB_eq_self_of_getLast _ _ hl]

theorem jsTrim_idem (s : Str) : jsTrim (jsTrim s) = jsTrim s := by
  by_cases h : jsTrim s = []
  · rw [h, jsTrim_nil]
  · exact jsTrim_eq_self _ (fun c hc => head?_jsTrim_not_ws hc)
      (fun c hc => getLast?_jsTrim_not_ws hc)

theorem jsTrim_eq_nil_of_all_ws {w : Str} (h : ∀ c ∈ w, isWsChar c) :
    jsTrim w = [] := by
  unfold jsTrim
  rw [List.dropWhile_eq_nil_iff.2 h]
  simp [dropRightWhileB]

theorem jsTrim_append_ws (v w : Str) (h : ∀ c ∈ w, isWsChar c) :
    jsTrim (v ++ w) = jsTrim v := by
  by_cases hv : v.dropWhile isWsChar = []
  · have hall : ∀ c ∈ v ++ w, isWsChar c := by
      intro c hc
      rcases List.mem_append.1 hc with hc | hc
      · exact List.dropWhile_eq_nil_iff.1 hv c hc
      · exact h c hc
    rw [jsTrim_eq_nil_of_all_ws hall, jsTrim_eq_nil_of_all_ws
      (fun c hc => List.dropWhile_eq_nil_iff.1 hv c hc)]
  · unfold jsTrim
    rw [List.dropWhile_append, if_neg (by simpa using hv)]
    rw [dropRightWhileB_append_of_all isWsChar h]

theorem jsTrim_prepend_ws (w y : Str) (h : ∀ c ∈ w, isWsChar c) :
    jsTrim (w ++ y) = jsTrim y := by
  unfold jsTrim
  rw [dropWhile_append_of_all isWsChar h]

/-! ## Lines of a concatenation, and lines of a trimmed string -/

theorem splitLines_append2 (u w : Str) :
    ∃ pre lastu, splitLines u = pre ++ [lastu] ∧
      splitLines (u ++ w) =
        pre ++ (lastu ++ (splitLines w).headD []) :: (splitLines w).tail := by
  induction u with
  | nil =>
    refine ⟨[], [], by simp [splitLines], ?_⟩
    cases h : splitLines w with
    | nil => exact absurd h (splitLines_ne_nil w)
    | cons x xs => simp [h]
  | cons c u' ih =>
    obtain ⟨pre', last', h1, h2⟩ := ih
    by_cases hc : c = '\n'
    · subst hc
      refine ⟨[] :: pre', last', ?_, ?_⟩
      · rw [splitLines_cons_newline, h1]
        simp
      · rw [List.cons_append, splitLines_cons_newline, h2]
        simp
    · cases pre' with
      | nil =>
        refine ⟨[], c :: last', ?_, ?_⟩
        · rw [splitLines_cons_of_ne _ hc, h1]
          simp
        · rw [List.cons_append, splitLines_cons_of_ne _ hc, h2]
          simp
      | cons p ps =>
        refine ⟨(c :: p) :: ps, last', ?_, ?_⟩
        · rw [splitLines_cons_of_ne _ hc, h1]
          simp
        · rw [List.cons_append, splitLines_cons_of_ne _ hc, h2]
          simp

theorem append_ws_lines {t w : Str} (hw : ∀ c ∈ w, isWsChar c)
    {l : Str} (hl : l ∈ splitLines t) :
    ∃ y ∈ splitLines (t ++ w), jsTrim y = jsTrim l := by
  obtain ⟨pre, lastu, h1, h2⟩ := splitLines_append2 t w
  rw [h1] at hl
  rcases List.mem_append.1 hl with hl | hl
  · exact ⟨l, by rw [h2]; exact List.mem_append_left _ hl, rfl⟩
  · have hl : l = lastu := by simpa using hl
    subst hl
    refine ⟨l ++ (splitLines w).headD [], ?_, ?_⟩
    · rw [h2]
      exact List.mem_append_right _ (List.mem_cons_self _ _)
    · exact jsTrim_append_ws _ _ fun c hc =>
        hw c (mem_of_mem_splitLines (headD_splitLines_mem w) hc)

theorem prepend_ws_lines {w rest : Str} (hw : ∀ c ∈ w, isWsChar c)
    {y : Str} (hy : y ∈ splitLines rest) :
    ∃ z ∈ splitLines (w ++ rest), jsTrim z = jsTrim y := by
  obtain ⟨pre, lastw, h1, h2⟩ := splitLines_append2 w rest
  cases h : splitLines rest with
  | nil => exact absurd h (splitLines_ne_nil rest)
  | cons r rs =>
    rw [h] at hy
    rcases List.mem_cons.1 hy with rfl | hy
    · refine ⟨lastw ++ (splitLines rest).headD [], ?_, ?_⟩
      · rw [h2]
        exact List.mem_append_right _ (List.mem_cons_self _ _)
      · rw [h, List.headD_cons]
        exact jsTrim_prepend_ws _ _ fun c hc => hw c
          (mem_of_mem_splitLines (h1 ▸ List.mem_append_right pre (List.mem_cons_self _ _)) hc)
    · refine ⟨y, ?_, rfl⟩
      rw [h2]
      refine List.mem_append_right _ (List.mem_cons_of_mem _ ?_)
      rw [h]
      exact hy

theorem exists_ws_decomposition (s : Str) :
    ∃ w₁ w₂, (∀ c ∈ w₁, isWsChar c) ∧ (∀ c ∈ w₂, isWsChar c) ∧
      s = w₁ ++ (jsTrim s ++ w₂) := by
  refine ⟨s.takeWhile isWsChar,
    ((s.dropWhile isWsChar).reverse.takeWhile isWsChar).reverse,
    fun c hc => List.mem_takeWhile_imp hc,
    fun c hc => List.mem_takeWhile_imp (List.mem_reverse.1 hc), ?_⟩
  have h1 : jsTrim s ++ ((s.dropWhile isWsChar).reverse.takeWhile isWsChar).reverse
      = s.dropWhile isWsChar := by
    unfold jsTrim dropRightWhileB
    rw [← List.reverse_append, List.takeWhile_append_dropWhile, List.reverse_reverse]
  rw [h1, List.takeWhile_append_dropWhile]

theorem lines_jsTrim_sub {s l : Str} (hl : l ∈ splitLines (jsTrim s)) :
    ∃ l' ∈ splitLines s, jsTrim l' = jsTrim l := by
  obtain ⟨w₁, w₂, hw₁, hw₂, hs⟩ := exists_ws_decomposition s
  obtain ⟨y, hy, hyt⟩ := append_ws_lines hw₂ hl
  obtain ⟨z, hz, hzt⟩ := prepend_ws_lines hw₁ hy
  exact ⟨z, hs ▸ hz, by rw [hzt, hyt]⟩

theorem lineHeading_congr {l₁ l₂ : Str} (h : jsTrim l₁ = jsTrim l₂) :
    lineHeading l₁ = lineHeading l₂ := by
  simp only [lineHeading, jsStartsWith, h]

theorem linesNonHeading_jsTrim {v : Str} (h : linesNonHeading v) :
    linesNonHeading (jsTrim v) := by
  intro l hl
  obtain ⟨l', hl', ht⟩ := lines_jsTrim_sub hl
  rw [← lineHeading_congr ht]
  exact h l' hl'

/-! ## Record lemmas -/

theorem SMap.get_set_same (m : SMap) (t : Title) (v : Str) :
    (m.set t v).get t = some v := by
  cases t <;> simp [SMap.get, SMap.set]

theorem SMap.get_set_ne (m : SMap) {t t' : Title} (v : Str) (h : t' ≠ t) :
    (m.set t v).get t' = m.get t' := by
  cases t <;> cases t' <;> first
    | exact absurd rfl h
    | simp [SMap.get, SMap.set]

theorem SMap.set_set_same (m : SMap) (t : Title) (a b : Str) :
    (m.set t a).set t b = m.set t b := by
  cases t <;> simp [SMap.set]

theorem SMap.set_get_self (m : SMap) {t : Title} {g : Str}
    (h : m.get t = some g) : m.set t g = m := by
  cases m
  cases t <;> (simp [SMap.get] at h; simp [SMap.set, h])

theorem SMap.ext_get {a b : SMap} (h : ∀ t, a.get t = b.get t) : a = b := by
  cases a
  cases b
  have h1 := h .purpose
  have h2 := h .summary
  have h3 := h .content1
  have h4 := h .content2
  have h5 := h .content3
  simp [SMap.get] at h1 h2 h3 h4 h5
  simp [h1, h2, h3, h4, h5]

theorem SMap.get_trimAll (m : SMap) (t : Title) :
    (m.trimAll).get t = (m.get t).map jsTrim := by
  cases t <;> simp [SMap.get, SMap.trimAll]

theorem SMap.get_norm (m : SMap) (t : Title) :
    (m.norm).get t = normVal (m.get t) := by
  cases t <;> simp [SMap.get, SMap.norm]

/-! ## The parse fold -/

theorem lineHeading_nil : lineHeading [] = none := by decide

theorem lineHeading_headingFor (t : Title) :
    lineHeading (headingFor t) = some t := by
  cases t <;> decide

theorem newline_not_mem_headingFor (t : Title) : '\n' ∉ headingFor t := by
  cases t <;> decide

theorem foldl_parseStep_nonheading (ls : List Str) (t : Title) :
    ∀ (m : SMap) (g : Str), m.get t = some g →
    (∀ l ∈ ls, lineHeading l = none) →
    ls.foldl parseStep (some t, m) = (some t, m.set t (g ++ linesJoin ls)) := by
  induction ls with
  | nil =>
    intro m g hg _
    simp [linesJoin, SMap.set_get_self m hg]
  | cons l ls ih =>
    intro m g hg h
    have hstep : parseStep (some t, m) l = (some t, m.set t (g ++ l ++ ['\n'])) := by
      simp [parseStep, h l (List.mem_cons_self l ls), hg]
    rw [List.foldl_cons, hstep,
      ih _ (g ++ l ++ ['\n']) (SMap.get_set_same m t _)
        (fun x hx => h x (List.mem_cons_of_mem l hx)),
      SMap.set_set_same]
    have : g ++ l ++ ['\n'] ++ linesJoin ls = g ++ linesJoin (l :: ls) := by
      simp [linesJoin]
    rw [this]

theorem foldl_parseStep_linesFor (m : SMap) (L : List Title)
    (h : ∀ t ∈ L, linesNonHeading (jsTrim (vOf m t))) :
    ∀ (cur₀ : Option Title) (m₀ : SMap),
    ∃ cur, (linesFor m L).foldl parseStep (cur₀, m₀) = (cur, setBlocks m L m₀) := by
  induction L with
  | nil =>
    intro cur₀ m₀
    exact ⟨cur₀, by simp [linesFor, setBlocks]⟩
  | cons t L ih =>
    intro cur₀ m₀
    have hlines : linesFor m (t :: L) =
        (headingFor t :: (splitLines (jsTrim (vOf m t)) ++ [[]])) ++ linesFor m L := by
      simp [linesFor]
    have hstep : parseStep (cur₀, m₀) (headingFor t) = (some t, m₀.set t []) := by
      simp [parseStep, lineHeading_headingFor]
    have hbody : (splitLines (jsTrim (vOf m t)) ++ [[]]).foldl parseStep
        (some t, m₀.set t []) =
        (some t, m₀.set t (jsTrim (vOf m t) ++ ['\n', '\n'])) := by
      rw [foldl_parseStep_nonheading _ t (m₀.set t []) []
        (SMap.get_set_same m₀ t []) ?_]
      · rw [SMap.set_set_same]
        congr 1
        congr 1
        rw [linesJoin_append, linesJoin_splitLines]
        simp [linesJoin]
      · intro l hl
        rcases List.mem_append.1 hl with hl | hl
        · exact h t (List.mem_cons_self t L) l hl
        · simp at hl
          subst hl
          exact lineHeading_nil
    obtain ⟨cur, hcur⟩ := ih (fun x hx => h x (List.mem_cons_of_mem t hx))
      (some t) (m₀.set t (jsTrim (vOf m t) ++ ['\n', '\n']))
    refine ⟨cur, ?_⟩
    rw [hlines, List.foldl_append, List.foldl_cons, hstep, hbody, hcur]
    rfl

/-! ## Structure of the serialized output -/

theorem splitLines_blocksFor_append (m : SMap) (L : List Title) (r : Str) :
    splitLines (blocksFor m L ++ r) = linesFor m L ++ splitLines r := by
  induction L with
  | nil => simp [blocksFor, linesFor]
  | cons t L ih =>
    have hb : blocksFor m (t :: L) ++ r =
        headingFor t ++ '\n' ::
          (jsTrim (vOf m t) ++ '\n' :: ('\n' :: (blocksFor m L ++ r))) := by
      simp [blocksFor, sectionBlock]
    rw [hb, splitLines_append_newline, splitLines_append_newline,
      splitLines_cons_newline, ih,
      splitLines_of_not_mem_newline (newline_not_mem_headingFor t)]
    simp [linesFor]

theorem blocksFor_concat (m : SMap) (L : List Title) (t : Title) :
    blocksFor m (L ++ [t]) = blocksFor m L ++ sectionBlock t (vOf m t) := by
  simp [blocksFor]

theorem head?_blocksFor_append (m : SMap) (L : List Title) (r : Str) :
    (blocksFor m L ++ ('#' :: r)).head? = some '#' := by
  cases L with
  | nil => simp [blocksFor]
  | cons t' L =>
    have : blocksFor m (t' :: L) = '#' ::
        (' ' :: titleStr t' ++ '\n' :: (jsTrim (vOf m t') ++ ['\n', '\n']) ++
          blocksFor m L) := by
      simp [blocksFor, sectionBlock, headingFor]
    rw [this]
    simp

theorem jsTrim_blocksFor_concat (m : SMap) (L : List Title) (t : Title)
    (hne : jsTrim (vOf m t) ≠ []) :
    jsTrim (blocksFor m (L ++ [t])) =
      blocksFor m L ++ headingFor t ++ '\n' :: jsTrim (vOf m t) := by
  have hY : blocksFor m (L ++ [t]) =
      (blocksFor m L ++ headingFor t ++ '\n' :: jsTrim (vOf m t)) ++ ['\n', '\n'] := by
    rw [blocksFor_concat]
    simp [sectionBlock]
  rw [hY, jsTrim_append_ws _ ['\n', '\n'] (by decide)]
  apply jsTrim_eq_self
  · intro c hc
    have hh : (blocksFor m L ++ headingFor t ++ '\n' :: jsTrim (vOf m t)).head? =
        some '#' := by
      rw [List.append_assoc]
      exact head?_blocksFor_append m L _
    rw [hh] at hc
    simp at hc
    subst hc
    decide
  · intro c hc
    rw [List.append_assoc, List.getLast?_append_of_ne_nil _ (by simp),
      show ('\n' :: jsTrim (vOf m t)) = ['\n'] ++ jsTrim (vOf m t) from rfl,
      ← List.append_assoc,
      List.getLast?_append_of_ne_nil _ hne] at hc
    exact getLast?_jsTrim_not_ws hc

/-! ## `setBlocks` lookups and `emittedTitles` -/

theorem get_setBlocks_not_mem (m : SMap) (L : List Title) (m₀ : SMap)
    {t : Title} (h : t ∉ L) : (setBlocks m L m₀).get t = m₀.get t := by
  induction L generalizing m₀ with
  | nil => rfl
  | cons t' L ih =>
    have hne : t ≠ t' := fun he => h (he ▸ List.mem_cons_self t' L)
    rw [show setBlocks m (t' :: L) m₀ =
        setBlocks m L (m₀.set t' (jsTrim (vOf m t') ++ ['\n', '\n'])) from rfl,
      ih _ (fun hm => h (List.mem_cons_of_mem t' hm)), SMap.get_set_ne _ _ hne]

theorem get_setBlocks_mem (m : SMap) (L : List Title) {t : Title} :
    ∀ (m₀ : SMap), t ∈ L → L.Nodup →
    (setBlocks m L m₀).get t = some (jsTrim (vOf m t) ++ ['\n', '\n']) := by
  induction L with
  | nil =>
    intro m₀ h _
    exact absurd h (List.not_mem_nil t)
  | cons t' L ih =>
    intro m₀ h hnd
    rw [show setBlocks m (t' :: L) m₀ =
        setBlocks m L (m₀.set t' (jsTrim (vOf m t') ++ ['\n', '\n'])) from rfl]
    rcases List.mem_cons.1 h with rfl | hmem
    · have hnotin : t ∉ L := (List.nodup_cons.1 hnd).1
      rw [get_setBlocks_not_mem m L _ hnotin, SMap.get_set_same]
    · exact ih _ hmem (List.nodup_cons.1 hnd).2

theorem mem_canonicalOrder (t : Title) : t ∈ canonicalOrder := by
  cases t <;> decide

theorem nodup_emittedTitles (m : SMap) : (emittedTitles m).Nodup :=
  List.Nodup.filter _ (by decide)

theorem mem_emittedTitles {m : SMap} {t : Title} :
    t ∈ emittedTitles m ↔ ∃ v, m.get t = some v ∧ jsTrim v ≠ [] := by
  unfold emittedTitles
  rw [List.mem_filter]
  constructor
  · rintro ⟨-, hc⟩
    cases hv : m.get t with
    | none => rw [hv] at hc; simp at hc
    | some v =>
      rw [hv] at hc
      refine ⟨v, rfl, ?_⟩
      intro he
      have hc2 : (!(jsTrim v).isEmpty) = true := hc
      rw [he] at hc2
      simp at hc2
  · rintro ⟨v, hv, hne⟩
    refine ⟨mem_canonicalOrder t, ?_⟩
    rw [hv]
    have hb : (jsTrim v).isEmpty = false := by
      cases hjt : jsTrim v with
      | nil => exact absurd hjt hne
      | cons a l => rfl
    simp [hb]

theorem newSectionContent_eq_blocksFor (m : SMap) :
    newSectionContent m = blocksFor m (emittedTitles m) := by
  show (canonicalOrder.map _).flatten = _
  unfold emittedTitles blocksFor
  induction canonicalOrder with
  | nil => rfl
  | cons t L ih =>
    rw [List.map_cons, List.flatten_cons, ih, List.filter_cons]
    cases hv : m.get t with
    | none => simp [hv]
    | some v =>
      by_cases he : jsTrim v = []
      · simp [hv, he]
      · have hb : (jsTrim v).isEmpty = false := by
          cases hjt : jsTrim v with
          | nil => exact absurd hjt he
          | cons a l => rfl
        simp [hv, he, hb, vOf]

/-! ## Parsing the serialized output -/

theorem SMap.get_empty (t : Title) : SMap.empty.get t = none := by
  cases t <;> rfl

theorem option_map_some (f : Str → Str) (a : Str) :
    Option.map f (some a) = some (f a) := rfl

theorem parse_serializeSections (m : SMap)
    (h : ∀ t v, m.get t = some v → linesNonHeading (jsTrim v)) :
    parseMarkdownContent (serializeSections m) = m.norm := by
  rcases List.eq_nil_or_concat (emittedTitles m) with hE | ⟨L₀, tk, hE⟩
  · have hser : serializeSections m = [] := by
      rw [serializeSections, newSectionContent_eq_blocksFor, hE]
      simp [blocksFor, jsTrim_nil]
    rw [hser]
    have hparse : parseMarkdownContent [] = SMap.empty := by decide
    rw [hparse]
    apply SMap.ext_get
    intro t
    rw [SMap.get_norm, SMap.get_empty]
    have hnmem : t ∉ emittedTitles m := by
      rw [hE]
      exact List.not_mem_nil t
    cases hv : m.get t with
    | none => rfl
    | some v =>
      have hve : jsTrim v = [] := by
        by_contra hne
        exact hnmem (mem_emittedTitles.2 ⟨v, hv, hne⟩)
      simp [normVal, hve]
  · rw [List.concat_eq_append] at hE
    have htkmem : tk ∈ emittedTitles m := by
      rw [hE]
      simp
    obtain ⟨vk, hvk, hvkne⟩ := mem_emittedTitles.1 htkmem
    have hvOfk : vOf m tk = vk := by simp [vOf, hvk]
    have hfk : jsTrim (vOf m tk) ≠ [] := by rwa [hvOfk]
    have hnd : (L₀ ++ [tk]).Nodup := hE ▸ nodup_emittedTitles m
    have hndL₀ : L₀.Nodup := hnd.of_append_left
    have htknotin : tk ∉ L₀ := by
      intro hmem
      have := List.disjoint_of_nodup_append hnd
      exact this hmem (List.mem_singleton.2 rfl)
    have hmemL₀ : ∀ t ∈ L₀, ∃ v, m.get t = some v ∧ jsTrim v ≠ [] := by
      intro t ht
      exact mem_emittedTitles.1 (by rw [hE]; exact List.mem_append_left _ ht)
    have hnhL₀ : ∀ t ∈ L₀, linesNonHeading (jsTrim (vOf m t)) := by
      intro t ht
      obtain ⟨v, hv, -⟩ := hmemL₀ t ht
      have : vOf m t = v := by simp [vOf, hv]
      rw [this]
      exact h t v hv
    have hser : serializeSections m =
        blocksFor m L₀ ++ (headingFor tk ++ '\n' :: jsTrim (vOf m tk)) := by
      rw [serializeSections, newSectionContent_eq_blocksFor, hE,
        jsTrim_blocksFor_concat m L₀ tk hfk, List.append_assoc]
    have hlines : splitLines (serializeSections m) =
        linesFor m L₀ ++ headingFor tk :: splitLines (jsTrim (vOf m tk)) := by
      rw [hser, splitLines_blocksFor_append, splitLines_append_newline,
        splitLines_of_not_mem_newline (newline_not_mem_headingFor tk)]
      rfl
    obtain ⟨cur, hcur⟩ := foldl_parseStep_linesFor m L₀ hnhL₀ none SMap.empty
    have hstep : parseStep (cur, setBlocks m L₀ SMap.empty) (headingFor tk) =
        (some tk, (setBlocks m L₀ SMap.empty).set tk []) := by
      simp [parseStep, lineHeading_headingFor]
    have hbody : (splitLines (jsTrim (vOf m tk))).foldl parseStep
        (some tk, (setBlocks m L₀ SMap.empty).set tk []) =
        (some tk, (setBlocks m L₀ SMap.empty).set tk
          (jsTrim (vOf m tk) ++ ['\n'])) := by
      rw [foldl_parseStep_nonheading _ tk _ [] (SMap.get_set_same _ tk []) ?_,
        SMap.set_set_same]
      · rw [linesJoin_splitLines]
        rfl
      · intro l hl
        have := h tk vk hvk
        rw [← hvOfk] at this
        exact this l hl
    have hfold : parseMarkdownContent (serializeSections m) =
        (((setBlocks m L₀ SMap.empty).set tk
          (jsTrim (vOf m tk) ++ ['\n']))).trimAll := by
      unfold parseMarkdownContent
      rw [hlines, List.foldl_append, hcur, List.foldl_cons, hstep, hbody]
    rw [hfold]
    apply SMap.ext_get
    intro t
    rw [SMap.get_trimAll, SMap.get_norm]
    by_cases htk : t = tk
    · subst htk
      rw [SMap.get_set_same, hvk, hvOfk]
      simp only [option_map_some, normVal, if_neg hvkne]
      rw [jsTrim_append_ws _ ['\n'] (by decide), jsTrim_idem]
    · rw [SMap.get_set_ne _ _ htk]
      by_cases hL : t ∈ L₀
      · obtain ⟨v, hv, hne⟩ := hmemL₀ t hL
        have hvOft : vOf m t = v := by simp [vOf, hv]
        rw [get_setBlocks_mem m L₀ SMap.empty hL hndL₀, hv, hvOft]
        simp only [option_map_some, normVal, if_neg hne]
        rw [jsTrim_append_ws _ ['\n', '\n'] (by decide), jsTrim_idem]
      · rw [get_setBlocks_not_mem m L₀ SMap.empty hL, SMap.get_empty]
        have hnmem : t ∉ emittedTitles m := by
          rw [hE]
          intro hmem
          rcases List.mem_append.1 hmem with hmem | hmem
          · exact hL hmem
          · exact htk (List.mem_singleton.1 hmem)
        cases hv : m.get t with
        | none => rfl
        | some v =>
          have hve : jsTrim v = [] := by
            by_contra hne
            exact hnmem (mem_emittedTitles.2 ⟨v, hv, hne⟩)
          simp [normVal, hve]

/-! ## The parse invariant -/

theorem parse_fold_invariant (ls : List Str) :
    ∀ (st : Option Title × SMap),
    (∀ l ∈ ls, '\n' ∉ l) →
    (∀ t w, st.2.get t = some w →
      linesNonHeading w ∧ (w = [] ∨ ∃ u, w = u ++ ['\n'])) →
    ∀ t w, ((ls.foldl parseStep st).2).get t = some w →
      linesNonHeading w ∧ (w = [] ∨ ∃ u, w = u ++ ['\n']) := by
  induction ls with
  | nil =>
    intro st _ hst t w hw
    exact hst t w hw
  | cons l ls ih =>
    intro st hnl hst t w hw
    rw [List.foldl_cons] at hw
    refine ih (parseStep st l) (fun x hx => hnl x (List.mem_cons_of_mem l hx))
      ?_ t w hw
    intro t' w' hw'
    cases hlh : lineHeading l with
    | some th =>
      rw [show parseStep st l = (some th, st.2.set th []) from by
        simp [parseStep, hlh]] at hw'
      by_cases hts : t' = th
      · subst hts
        rw [SMap.get_set_same] at hw'
        simp only [Option.some_inj] at hw'
        subst hw'
        constructor
        · intro x hx
          simp only [splitLines, List.mem_singleton] at hx
          subst hx
          exact lineHeading_nil
        · exact Or.inl rfl
      · rw [SMap.get_set_ne _ _ hts] at hw'
        exact hst t' w' hw'
    | none =>
      cases hcur : st.1 with
      | none =>
        rw [show parseStep st l = st from by
          cases st with
          | mk a b =>
            simp at hcur
            simp [parseStep, hlh, hcur]] at hw'
        exact hst t' w' hw'
      | some tc =>
        rw [show parseStep st l =
            (some tc, st.2.set tc (((st.2.get tc).getD []) ++ l ++ ['\n'])) from by
          cases st with
          | mk a b =>
            simp at hcur
            simp [parseStep, hlh, hcur]] at hw'
        by_cases hts : t' = tc
        · subst hts
          rw [SMap.get_set_same] at hw'
          simp only [Option.some_inj] at hw'
          subst hw'
          have hlnl : '\n' ∉ l := hnl l (List.mem_cons_self l ls)
          have happend : ∀ (g : Str), linesNonHeading g →
              (g = [] ∨ ∃ u, g = u ++ ['\n']) →
              linesNonHeading (g ++ l ++ ['\n']) := by
            intro g hgnh hgs
            rcases hgs with rfl | ⟨u, rfl⟩
            · intro x hx
              rw [List.nil_append, show l ++ ['\n'] = l ++ '\n' :: [] from rfl,
                splitLines_append_newline,
                splitLines_of_not_mem_newline hlnl] at hx
              rcases List.mem_append.1 hx with hx | hx
              · rw [List.mem_singleton.1 hx]
                exact hlh
              · have hx2 : x = [] := by simpa [splitLines] using hx
                subst hx2
                exact lineHeading_nil
            · intro x hx
              have hshape : u ++ ['\n'] ++ l ++ ['\n'] = u ++ '\n' :: (l ++ '\n' :: []) := by
                simp
              rw [hshape, splitLines_append_newline, splitLines_append_newline,
                splitLines_of_not_mem_newline hlnl] at hx
              rcases List.mem_append.1 hx with hx | hx
              · have hu : x ∈ splitLines (u ++ ['\n']) := by
                  rw [show u ++ ['\n'] = u ++ '\n' :: [] from rfl,
                    splitLines_append_newline]
                  exact List.mem_append_left _ hx
                exact hgnh x hu
              · rcases List.mem_append.1 hx with hx | hx
                · rw [List.mem_singleton.1 hx]
                  exact hlh
                · have hx2 : x = [] := by simpa [splitLines] using hx
                  subst hx2
                  exact lineHeading_nil
          cases hg : st.2.get t' with
          | none =>
            simp only [Option.getD_none]
            refine ⟨?_, Or.inr ⟨l, by simp⟩⟩
            exact happend [] (fun x hx => by
              simp only [splitLines, List.mem_singleton] at hx
              subst hx
              exact lineHeading_nil) (Or.inl rfl)
          | some g =>
            obtain ⟨hgnh, hgs⟩ := hst t' g hg
            simp only [Option.getD_some]
            exact ⟨happend g hgnh hgs, Or.inr ⟨g ++ l, rfl⟩⟩
        · rw [SMap.get_set_ne _ _ hts] at hw'
          exact hst t' w' hw'

theorem parse_value_invariant (x : Str) (t : Title) (v : Str)
    (h : (parseMarkdownContent x).get t = some v) :
    linesNonHeading v ∧ jsTrim v = v := by
  unfold parseMarkdownContent at h
  rw [SMap.get_trimAll] at h
  cases hw : ((splitLines x).foldl parseStep (none, SMap.empty)).2.get t with
  | none =>
    rw [hw] at h
    simp at h
  | some w =>
    rw [hw] at h
    simp only [option_map_some, Option.some_inj] at h
    have hinv := parse_fold_invariant (splitLines x) (none, SMap.empty)
      (fun l hl => not_newline_mem_of_mem_splitLines hl)
      (by
        intro t' w' hw'
        rw [SMap.get_empty] at hw'
        exact absurd hw' (Option.noConfusion))
      t w hw
    constructor
    · rw [← h]
      exact linesNonHeading_jsTrim hinv.1
    · rw [← h, jsTrim_idem]

theorem serializeSections_norm (m : SMap) :
    serializeSections m.norm = serializeSections m := by
  unfold serializeSections newSectionContent
  congr 1
  congr 1
  apply List.map_congr_left
  intro t _
  rw [SMap.get_norm]
  cases hv : m.get t with
  | none => rfl
  | some v =>
    by_cases he : jsTrim v = []
    · simp [normVal, he]
    · simp only [normVal, if_neg he]
      simp only [sectionBlock, jsTrim_idem, he, ne_eq, not_false_eq_true, if_pos]

/-! ## Fold congruence in one section entry (for C10) -/

theorem foldl_parseStep_get_congr (t : Title) (ls : List Str) :
    ∀ (st₁ st₂ : Option Title × SMap),
    st₁.1 = st₂.1 → st₁.2.get t = st₂.2.get t →
    (ls.foldl parseStep st₁).1 = (ls.foldl parseStep st₂).1 ∧
    ((ls.foldl parseStep st₁).2).get t = ((ls.foldl parseStep st₂).2).get t := by
  induction ls with
  | nil =>
    intro st₁ st₂ h1 h2
    exact ⟨h1, h2⟩
  | cons l ls ih =>
    intro st₁ st₂ h1 h2
    rw [List.foldl_cons, List.foldl_cons]
    have hstep : (parseStep st₁ l).1 = (parseStep st₂ l).1 ∧
        ((parseStep st₁ l).2).get t = ((parseStep st₂ l).2).get t := by
      cases hlh : lineHeading l with
      | some th =>
        have e1 : parseStep st₁ l = (some th, st₁.2.set th []) := by
          simp [parseStep, hlh]
        have e2 : parseStep st₂ l = (some th, st₂.2.set th []) := by
          simp [parseStep, hlh]
        rw [e1, e2]
        refine ⟨rfl, ?_⟩
        by_cases hts : t = th
        · subst hts
          rw [SMap.get_set_same, SMap.get_set_same]
        · rw [SMap.get_set_ne _ _ hts, SMap.get_set_ne _ _ hts]
          exact h2
      | none =>
        cases hc : st₁.1 with
        | none =>
          have hc2 : st₂.1 = none := h1 ▸ hc
          have e1 : parseStep st₁ l = st₁ := by
            cases st₁ with
            | mk a b =>
              simp at hc
              simp [parseStep, hlh, hc]
          have e2 : parseStep st₂ l = st₂ := by
            cases st₂ with
            | mk a b =>
              simp at hc2
              simp [parseStep, hlh, hc2]
          rw [e1, e2]
          exact ⟨h1, h2⟩
        | some tcur =>
          have hc2 : st₂.1 = some tcur := h1 ▸ hc
          have e1 : parseStep st₁ l = (some tcur,
              st₁.2.set tcur (((st₁.2.get tcur).getD []) ++ l ++ ['\n'])) := by
            cases st₁ with
            | mk a b =>
              simp at hc
              simp [parseStep, hlh, hc]
          have e2 : parseStep st₂ l = (some tcur,
              st₂.2.set tcur (((st₂.2.get tcur).getD []) ++ l ++ ['\n'])) := by
            cases st₂ with
            | mk a b =>
              simp at hc2
              simp [parseStep, hlh, hc2]
          rw [e1, e2]
          refine ⟨rfl, ?_⟩
          by_cases hts : t = tcur
          · subst hts
            rw [SMap.get_set_same, SMap.get_set_same, h2]
          · rw [SMap.get_set_ne _ _ hts, SMap.get_set_ne _ _ hts]
            exact h2
    exact ih _ _ hstep.1 hstep.2

/-! ## Claim theorems for the section codec -/

/-- C1: for every document text `x`, serializing the parse of `x` is a
stable fixed point of `parse ∘ serialize`:
`serialize (parse (serialize (parse x))) = serialize (parse x)`, where
`parse` is `parseMarkdownContent` and `serialize` is the section-assembly
step of `saveMarkdown` (headings plus trimmed bodies, final trim included,
frontmatter and I/O omitted).  `serialize (parse x)` need not equal `x`. -/
theorem claim_C1_serialize_parse_stable (x : Str) :
    serializeSections (parseMarkdownContent (serializeSections
      (parseMarkdownContent x))) =
      serializeSections (parseMarkdownContent x) := by
  have hhyp : ∀ t v, (parseMarkdownContent x).get t = some v →
      linesNonHeading (jsTrim v) := by
    intro t v hv
    obtain ⟨hnh, htr⟩ := parse_value_invariant x t v hv
    rwa [htr]
  rw [parse_serializeSections _ hhyp, serializeSections_norm]

/-- C2: for every section record, the section-assembly step of
`saveMarkdown` emits exactly the sections whose value is present and has
non-empty trimmed content, in the fixed canonical order
`[Purpose, Summary, Content1, Content2, Content3]` (the record itself is
unordered, so the emission order cannot depend on any input order), and each
such section is emitted as the heading marker `"# "` plus the title, a
newline, the trimmed content, and a blank line; sections whose trimmed
content is empty or undefined contribute nothing. -/
theorem claim_C2_canonical_emission (m : SMap) :
    newSectionContent m =
      ((canonicalOrder.filter fun t =>
          (m.get t).any fun v => !(jsTrim v).isEmpty).map
        fun t => headingFor t ++ '\n' :: (jsTrim (vOf m t) ++ ['\n', '\n'])).flatten := by
  rw [newSectionContent_eq_blocksFor]
  unfold blocksFor emittedTitles
  have hf : (canonicalOrder.filter fun t =>
      match m.get t with
      | some v => !(jsTrim v).isEmpty
      | none => false) =
      (canonicalOrder.filter fun t => (m.get t).any fun v => !(jsTrim v).isEmpty) := by
    apply List.filter_congr
    intro t _
    cases m.get t <;> rfl
  rw [hf]
  rfl

/-- C3 (counterexample): the spec's scenario uses the heading marker
`"## "`, but `parseMarkdownContent` recognises only `"# " + title`
(src/view.ts:2327), so on `"## Purpose\nWhy\n\n## Summary\nTL;DR\n"` the
parse yields no sections at all, not `{Purpose: "Why", Summary: "TL;DR"}`,
and the serialization is empty, not the claimed text. -/
theorem claim_C3_counterexample :
    parseMarkdownContent "## Purpose\nWhy\n\n## Summary\nTL;DR\n".toList ≠
      (⟨some "Why".toList, some "TL;DR".toList, none, none, none⟩ : SMap) ∧
    serializeSections (parseMarkdownContent
      "## Purpose\nWhy\n\n## Summary\nTL;DR\n".toList) ≠
      "## Purpose\nWhy\n\n## Summary\nTL;DR".toList := by
  decide

/-- C3 (amended): with the code's single-hash heading marker, the scenario
holds: parsing `"# Purpose\nWhy\n\n# Summary\nTL;DR\n"` gives
`{Purpose: "Why", Summary: "TL;DR"}`, and serializing the parsed record
gives `"# Purpose\nWhy\n\n# Summary\nTL;DR"`. -/
theorem claim_C3_amended :
    parseMarkdownContent "# Purpose\nWhy\n\n# Summary\nTL;DR\n".toList =
      (⟨some "Why".toList, some "TL;DR".toList, none, none, none⟩ : SMap) ∧
    serializeSections (parseMarkdownContent
      "# Purpose\nWhy\n\n# Summary\nTL;DR\n".toList) =
      "# Purpose\nWhy\n\n# Summary\nTL;DR".toList := by
  decide

/-- C10: when the same recognised heading occurs more than once,
`parseMarkdownContent` resets that section's accumulator at each
occurrence, so the section's final value depends only on what follows the
last occurrence of its heading: parsing `x ++ "\n" ++ h ++ "\n" ++ y`,
where `h` is a heading line for section `t`, gives `t` the same value as
parsing `h ++ "\n" ++ y` alone — everything before (including content
after earlier occurrences of the heading in `x`) is discarded. -/
theorem claim_C10_duplicate_heading_reset (x y h : Str) (t : Title)
    (hnl : '\n' ∉ h) (hh : lineHeading h = some t) :
    (parseMarkdownContent (x ++ '\n' :: (h ++ '\n' :: y))).get t =
      (parseMarkdownContent (h ++ '\n' :: y)).get t := by
  unfold parseMarkdownContent
  rw [SMap.get_trimAll, SMap.get_trimAll]
  have hA : splitLines (x ++ '\n' :: (h ++ '\n' :: y)) =
      splitLines x ++ (h :: splitLines y) := by
    rw [splitLines_append_newline, splitLines_append_newline,
      splitLines_of_not_mem_newline hnl]
    rfl
  have hB : splitLines (h ++ '\n' :: y) = h :: splitLines y := by
    rw [splitLines_append_newline, splitLines_of_not_mem_newline hnl]
    rfl
  rw [hA, hB, List.foldl_append, List.foldl_cons, List.foldl_cons]
  have e1 : ∀ (st : Option Title × SMap),
      parseStep st h = (some t, st.2.set t []) := by
    intro st
    simp [parseStep, hh]
  rw [e1, e1]
  congr 1
  exact (foldl_parseStep_get_congr t (splitLines y)
    (some t, ((splitLines x).foldl parseStep (none, SMap.empty)).2.set t [])
    (some t, (none, SMap.empty).2.set t []) rfl
    (by rw [SMap.get_set_same, SMap.get_set_same])).2

/-- Witness for C10 at a concrete input: the document
`"# Purpose\nold\n# Purpose\nnew"` assigns `Purpose` the content after the
last `"# Purpose"` heading, exactly as parsing `"# Purpose\nnew"` does. -/
theorem claim_C10_witness :
    ('\n' ∉ "# Purpose".toList) ∧
    lineHeading "# Purpose".toList = some Title.purpose ∧
    (parseMarkdownContent ("# Purpose\nold".toList ++ '\n' ::
        ("# Purpose".toList ++ '\n' :: "new".toList))).get Title.purpose =
      (parseMarkdownContent ("# Purpose".toList ++ '\n' ::
        "new".toList)).get Title.purpose :=
  ⟨by decide, by decide,
    claim_C10_duplicate_heading_reset "# Purpose\nold".toList "new".toList
      "# Purpose".toList Title.purpose (by decide) (by decide)⟩

/-! ## The list-structure scans (C5) -/

theorem scanHasChildren_eq (cur : ListItem) (l : List ListItem) :
    scanHasChildren cur l =
      !((l.takeWhile fun nxt => decide (nxt.indentLevel > cur.indentLevel)).isEmpty) := by
  cases l with
  | nil => rfl
  | cons x rest =>
    by_cases hx : x.indentLevel > cur.indentLevel
    · simp [scanHasChildren, hx, List.takeWhile_cons]
    · have hle : x.indentLevel ≤ cur.indentLevel := by omega
      simp [scanHasChildren, hx, hle, List.takeWhile_cons]

theorem scanShouldHide_eq (cur : ListItem) (l : List ListItem) :
    scanShouldHide cur l =
      (match (l.filter fun p => decide (p.indentLevel < cur.indentLevel)).find?
          (fun p => p.isCollapsed ||
            decide ((p.indentLevel : Int) ≤ (cur.indentLevel : Int) - 2)) with
       | some p => p.isCollapsed
       | none => false) := by
  induction l with
  | nil => rfl
  | cons p rest ih =>
    by_cases hlt : p.indentLevel < cur.indentLevel
    · by_cases hcol : p.isCollapsed
      · simp [scanShouldHide, hlt, hcol, List.filter_cons]
      · by_cases hstop : (p.indentLevel : Int) ≤ (cur.indentLevel : Int) - 2
        · simp [scanShouldHide, hlt, hcol, hstop, List.filter_cons]
        · simp [scanShouldHide, hlt, hcol, hstop, List.filter_cons, ih]
    · simp [scanShouldHide, hlt, List.filter_cons, ih]

theorem structurePass_get? :
    ∀ (rest prevRev : List ListItem) (j : Nat) (cur : ListItem),
    rest.get? j = some cur →
    (structurePass prevRev rest).get? j = some (cur.lineIndex,
      ⟨scanHasChildren cur (rest.drop (j + 1)), cur.isCollapsed,
       scanShouldHide cur ((rest.take j).reverse ++ prevRev)⟩) := by
  intro rest
  induction rest with
  | nil =>
    intro prevRev j cur h
    simp at h
  | cons x rest ih =>
    intro prevRev j cur h
    cases j with
    | zero =>
      simp at h
      subst h
      simp [structurePass]
    | succ j =>
      simp only [List.get?_cons_succ] at h
      have := ih (x :: prevRev) j cur h
      simp only [structurePass, List.get?_cons_succ, List.drop_succ_cons,
        List.take_succ_cons, List.reverse_cons, List.append_assoc,
        List.singleton_append]
      exact this

/-- C5 (counterexample): in `"- a<!--COLLAPSED-->\n - b\n  - c"` the
nearest preceding item with strictly lesser indentation than the third
item (`"  - c"`, indent 2) is `" - b"` (indent 1, not collapsed), so under
the claim's rule `shouldHide` would be `false`; yet `parseListStructure`
reports `shouldHide = true` for line 2 (the backward scan skips past the
non-collapsed parent at indent 1 because 1 > 2 − 2 and finds the
collapsed grandparent).  The claim's iff therefore fails. -/
theorem claim_C5_counterexample :
    (((allListItems "- a<!--COLLAPSED-->\n - b\n  - c".toList).take 2).reverse.find?
        fun p => decide (p.indentLevel < 2)) =
      some ⟨1, 1, false⟩ ∧
    (parseListStructure "- a<!--COLLAPSED-->\n - b\n  - c".toList).lookup 2 =
      some ⟨false, false, true⟩ := by
  decide

/-- C5 (amended): in the structure map returned by `parseListStructure`,
an item's `hasChildren` flag is true iff at least one subsequent list item
has strictly greater indentation before the first subsequent list item at
lesser-or-equal indentation, and its `shouldHide` flag is true iff, among
the preceding list items with strictly lesser indentation (nearest first),
the first one that is either collapsed or indented at most the item's
indentation minus two exists and is collapsed (the scan continues past
non-collapsed items exactly one indentation level shallower). -/
theorem claim_C5_structure_flags (text : Str) (i : Nat) (cur : ListItem)
    (h : (allListItems text).get? i = some cur) :
    (parseListStructure text).get? i = some (cur.lineIndex,
      ⟨!(((allListItems text).drop (i + 1)).takeWhile
          fun nxt => decide (nxt.indentLevel > cur.indentLevel)).isEmpty,
       cur.isCollapsed,
       (match (((allListItems text).take i).reverse.filter
            fun p => decide (p.indentLevel < cur.indentLevel)).find?
            (fun p => p.isCollapsed ||
              decide ((p.indentLevel : Int) ≤ (cur.indentLevel : Int) - 2)) with
        | some p => p.isCollapsed
        | none => false)⟩) := by
  have hmain := structurePass_get? (allListItems text) [] i cur h
  rw [parseListStructure, hmain, scanHasChildren_eq, scanShouldHide_eq]
  simp

/-- C5 witness at a concrete input: in `"- a\n  - b"` the first item has a
deeper next item, so `hasChildren` is true and it is neither collapsed nor
hidden. -/
theorem claim_C5_witness :
    (allListItems "- a\n  - b".toList).get? 0 = some ⟨0, 0, false⟩ ∧
    (parseListStructure "- a\n  - b".toList).get? 0 =
      some (0, ⟨true, false, false⟩) :=
  ⟨by decide,
    (claim_C5_structure_flags "- a\n  - b".toList 0 ⟨0, 0, false⟩
      (by decide)).trans (by decide)⟩

/-! ## `toggleListCollapse` (C6) -/

theorem collapseChildLoop_eq (ns : Bool) (p : Nat) :
    ∀ (rls : List Str) (start : Nat),
    collapseChildLoop ns p rls start =
      (((withOffsets start rls).takeWhile fun ol =>
          !(decide ((ol.2.takeWhile isWsChar).length ≤ p) &&
            isBulletStart (restOfLineOf
              (ol.2.drop (ol.2.takeWhile isWsChar).length)))).filter
        fun ol => decide ((ol.2.takeWhile isWsChar).length > p) &&
          !(jsTrim (restOfLineOf
              (ol.2.drop (ol.2.takeWhile isWsChar).length))).isEmpty).map
        fun ol => ⟨ol.1, ol.1 + ol.2.length, hiddenEdit ns ol.2⟩ := by
  intro rls
  induction rls with
  | nil => intro start; rfl
  | cons line rest ih =>
    intro start
    have hempty : ∀ (s : Str), (!s.isEmpty) = true ↔ s ≠ [] := by
      intro s
      cases s <;> simp
    by_cases hgt : (line.takeWhile isWsChar).length > p
    · have hd : decide ((line.takeWhile isWsChar).length ≤ p) = false := by
        simp
        omega
      have hdgt : decide ((line.takeWhile isWsChar).length > p) = true := by
        simpa using hgt
      by_cases hne : jsTrim (restOfLineOf
          (line.drop (line.takeWhile isWsChar).length)) ≠ []
      · -- a child line: kept by takeWhile, kept by filter, edited
        have hl : collapseChildLoop ns p (line :: rest) start =
            ⟨start, start + line.length, hiddenEdit ns line⟩ ::
              collapseChildLoop ns p rest (start + line.length + 1) := by
          simp only [collapseChildLoop, if_pos (And.intro hgt hne), hd,
            Bool.and_false, Bool.not_false, if_pos]
        rw [hl, ih]
        simp [withOffsets, List.takeWhile_cons, List.filter_cons, hd, hdgt,
          (hempty _).2 hne]
      · -- blank deeper line: kept by takeWhile, dropped by filter, skipped
        have hl : collapseChildLoop ns p (line :: rest) start =
            collapseChildLoop ns p rest (start + line.length + 1) := by
          have h1 : ¬((line.takeWhile isWsChar).length > p ∧ jsTrim (restOfLineOf
              (line.drop (line.takeWhile isWsChar).length)) ≠ []) := by
            intro hcon
            exact hne hcon.2
          have h2 : ¬((line.takeWhile isWsChar).length ≤ p ∧
              isBulletStart (restOfLineOf
                (line.drop (line.takeWhile isWsChar).length)) = true) := by
            intro hcon
            omega
          simp only [collapseChildLoop, if_neg h1, if_neg h2]
        rw [hl, ih]
        have hxe : jsTrim (restOfLineOf
            (line.drop (line.takeWhile isWsChar).length)) = [] := by
          push_neg at hne
          exact hne
        simp [withOffsets, List.takeWhile_cons, List.filter_cons, hd, hxe]
    · -- shallower-or-equal line: stops the loop iff it is a list item
      have hle : (line.takeWhile isWsChar).length ≤ p := by omega
      have hd : decide ((line.takeWhile isWsChar).length ≤ p) = true := by
        simpa using hle
      have hdgt : decide ((line.takeWhile isWsChar).length > p) = false := by
        simp
        omega
      have h1 : ¬((line.takeWhile isWsChar).length > p ∧ jsTrim (restOfLineOf
          (line.drop (line.takeWhile isWsChar).length)) ≠ []) := by
        intro hcon
        omega
      by_cases hb : isBulletStart (restOfLineOf
          (line.drop (line.takeWhile isWsChar).length)) = true
      · have hl : collapseChildLoop ns p (line :: rest) start = [] := by
          simp only [collapseChildLoop, if_neg h1, if_pos (And.intro hle hb)]
        rw [hl]
        simp [withOffsets, List.takeWhile_cons, hd, hb]
      · have hl : collapseChildLoop ns p (line :: rest) start =
            collapseChildLoop ns p rest (start + line.length + 1) := by
          have h2 : ¬((line.takeWhile isWsChar).length ≤ p ∧
              isBulletStart (restOfLineOf
                (line.drop (line.takeWhile isWsChar).length)) = true) := by
            intro hcon
            exact hb hcon.2
          simp only [collapseChildLoop, if_neg h1, if_neg h2]
        rw [hl, ih]
        have hbf : isBulletStart (restOfLineOf
            (line.drop (line.takeWhile isWsChar).length)) = false := by
          simpa using hb
        simp [withOffsets, List.takeWhile_cons, List.filter_cons, hd, hbf, hdgt]

/-- C6 (counterexample): on `"- p\n  - c\ntext\n  - d"`, toggling collapse
on line 0 rewrites lines 0, 1 and 3 — but line 2 (`"text"`) is at
indentation 0, lesser-or-equal to the parent's, so under the claim's rule
(descendants are the strictly-deeper lines up to the next line at
lesser-or-equal indentation) the only descendant is line 1; the edit at
offset 15 (= the start of line 3) adds a `HIDDEN` sentinel to a line the
claim says must not be touched. -/
theorem claim_C6_counterexample :
    toggleListCollapse "- p\n  - c\ntext\n  - d".toList 0 false =
      some [⟨0, 3, "- p<!--COLLAPSED-->".toList⟩,
            ⟨4, 9, "  - c<!--HIDDEN-->".toList⟩,
            ⟨15, 20, "  - d<!--HIDDEN-->".toList⟩] ∧
    (((splitLines "- p\n  - c\ntext\n  - d".toList).getD 2 []).takeWhile
      isWsChar).length = 0 ∧
    lineStartOffset (splitLines "- p\n  - c\ntext\n  - d".toList) 3 = 15 := by
  decide

/-- C6 (amended): for every text and valid list-item line number, toggling
collapse dispatches one transaction whose changes are: the target line
rewritten with the `COLLAPSED` sentinel added (when collapsing) or removed
(when expanding), followed by a `HIDDEN`-sentinel rewrite of exactly the
nonblank lines at strictly greater indentation, scanning forward until the
first *list-item* line (bullet followed by whitespace) at lesser-or-equal
indentation — blank lines are left untouched and non-list lines at
lesser-or-equal indentation do not stop the scan. -/
theorem claim_C6_collapse_transaction (text : Str) (ln : Nat) (c : Bool)
    (h : ln < (splitLines text).length) :
    toggleListCollapse text ln c = some
      (⟨lineStartOffset (splitLines text) ln,
        lineStartOffset (splitLines text) ln +
          ((splitLines text).getD ln []).length,
        collapsedEdit (!c) ((splitLines text).getD ln [])⟩ ::
       (((withOffsets (lineStartOffset (splitLines text) ln +
             ((splitLines text).getD ln []).length + 1)
           ((splitLines text).drop (ln + 1))).takeWhile fun ol =>
            !(decide ((ol.2.takeWhile isWsChar).length ≤
                (((splitLines text).getD ln []).takeWhile isWsChar).length) &&
              isBulletStart (restOfLineOf
                (ol.2.drop (ol.2.takeWhile isWsChar).length)))).filter
          fun ol => decide ((ol.2.takeWhile isWsChar).length >
              (((splitLines text).getD ln []).takeWhile isWsChar).length) &&
            !(jsTrim (restOfLineOf
                (ol.2.drop (ol.2.takeWhile isWsChar).length))).isEmpty).map
         fun ol => ⟨ol.1, ol.1 + ol.2.length, hiddenEdit (!c) ol.2⟩) := by
  unfold toggleListCollapse
  rw [if_neg (by omega)]
  dsimp only
  rw [collapseChildLoop_eq]

/-- C6 witness at a concrete input: collapsing `"- p\n  - c"` at line 0
yields one transaction adding `COLLAPSED` to line 0 and `HIDDEN` to its
only descendant line 1. -/
theorem claim_C6_witness :
    0 < (splitLines "- p\n  - c".toList).length ∧
    toggleListCollapse "- p\n  - c".toList 0 false =
      some [⟨0, 3, "- p<!--COLLAPSED-->".toList⟩,
            ⟨4, 9, "  - c<!--HIDDEN-->".toList⟩] :=
  ⟨by decide,
    (claim_C6_collapse_transaction "- p\n  - c".toList 0 false
      (by decide)).trans (by decide)⟩

/-! ## `toggleCheckbox` (C7) and stale line numbers (C8) -/

theorem joinNl_cons_of_ne_nil (x : Str) {ys : List Str} (h : ys ≠ []) :
    joinNl (x :: ys) = x ++ '\n' :: joinNl ys := by
  cases ys with
  | nil => exact absurd rfl h
  | cons y ys => rfl

theorem joinNl_splitLines (s : Str) : joinNl (splitLines s) = s := by
  induction s with
  | nil => rfl
  | cons c rest ih =>
    by_cases hc : c = '\n'
    · subst hc
      rw [splitLines_cons_newline,
        joinNl_cons_of_ne_nil [] (splitLines_ne_nil rest), ih]
      rfl
    · rw [splitLines_cons_of_ne _ hc]
      cases h : splitLines rest with
      | nil => exact absurd h (splitLines_ne_nil rest)
      | cons l ls =>
        rw [h] at ih
        simp only [List.headD_cons, List.tail_cons]
        cases ls with
        | nil =>
          simp only [joinNl] at ih ⊢
          rw [ih]
        | cons l2 ls2 =>
          have ih2 : l ++ '\n' :: joinNl (l2 :: ls2) = rest := ih
          rw [joinNl_cons_of_ne_nil (c :: l) (by simp), List.cons_append, ih2]

theorem lineStartOffset_cons (x : Str) (xs : List Str) (n : Nat) :
    lineStartOffset (x :: xs) (n + 1) = x.length + 1 + lineStartOffset xs n := by
  simp [lineStartOffset, List.take_succ_cons]

theorem applyChanges_single_line :
    ∀ (pre : List Str) (line newLine : Str) (suf : List Str),
    applyChanges (joinNl (pre ++ line :: suf))
      [⟨lineStartOffset (pre ++ line :: suf) pre.length,
        lineStartOffset (pre ++ line :: suf) pre.length + line.length,
        newLine⟩] =
    joinNl (pre ++ newLine :: suf) := by
  intro pre
  induction pre with
  | nil =>
    intro line newLine suf
    simp only [List.nil_append, List.length_nil]
    have h0 : lineStartOffset (line :: suf) 0 = 0 := by
      simp [lineStartOffset]
    rw [h0]
    cases suf with
    | nil =>
      show applyChangesFrom (joinNl [line]) 0
        [⟨0, 0 + line.length, newLine⟩] = joinNl [newLine]
      simp [applyChangesFrom, joinNl]
    | cons s suf2 =>
      show applyChangesFrom (joinNl (line :: s :: suf2)) 0
        [⟨0, 0 + line.length, newLine⟩] = joinNl (newLine :: s :: suf2)
      rw [joinNl_cons_of_ne_nil line (by simp),
        joinNl_cons_of_ne_nil newLine (by simp)]
      simp [applyChangesFrom, List.drop_left]
  | cons p pre ih =>
    intro line newLine suf
    have hj1 : joinNl (p :: (pre ++ line :: suf)) =
        p ++ '\n' :: joinNl (pre ++ line :: suf) :=
      joinNl_cons_of_ne_nil p (by simp)
    have hj2 : joinNl (p :: (pre ++ newLine :: suf)) =
        p ++ '\n' :: joinNl (pre ++ newLine :: suf) :=
      joinNl_cons_of_ne_nil p (by simp)
    rw [List.cons_append, List.cons_append, hj1, hj2, List.length_cons,
      lineStartOffset_cons]
    show applyChangesFrom _ 0 _ = _
    simp only [applyChangesFrom, List.drop_zero, Nat.sub_zero]
    have htext : p ++ '\n' :: joinNl (pre ++ line :: suf) =
        (p ++ ['\n']) ++ joinNl (pre ++ line :: suf) := by
      simp
    have hplen : p.length + 1 = (p ++ ['\n'] : Str).length := by
      simp
    rw [htext]
    rw [show p.length + 1 + lineStartOffset (pre ++ line :: suf) pre.length +
        line.length = p.length + 1 +
        (lineStartOffset (pre ++ line :: suf) pre.length + line.length) from by
      omega]
    rw [hplen, List.take_append, List.drop_append]
    have hih := ih line newLine suf
    have hihlhs : applyChanges (joinNl (pre ++ line :: suf))
        [⟨lineStartOffset (pre ++ line :: suf) pre.length,
          lineStartOffset (pre ++ line :: suf) pre.length + line.length,
          newLine⟩] =
        (joinNl (pre ++ line :: suf)).take
          (lineStartOffset (pre ++ line :: suf) pre.length) ++
        (newLine ++ (joinNl (pre ++ line :: suf)).drop
          (lineStartOffset (pre ++ line :: suf) pre.length + line.length)) := by
      show applyChangesFrom _ 0 _ = _
      simp [applyChangesFrom]
    rw [hihlhs] at hih
    rw [← hih]
    simp

theorem list_decompose_at {α : Type _} (l : List α) (n : Nat) (d : α)
    (h : n < l.length) :
    l = l.take n ++ l.getD n d :: l.drop (n + 1) ∧ (l.take n).length = n := by
  constructor
  · conv_lhs => rw [← List.take_append_drop n l]
    congr 1
    rw [List.drop_eq_getElem_cons h]
    congr 1
    simp [List.getD, List.getElem?_eq_getElem h]
  · simp
    omega

theorem applyChanges_set_line (lines : List Str) (n : Nat) (newLine : Str)
    (hn : n < lines.length) :
    applyChanges (joinNl lines)
      [⟨lineStartOffset lines n,
        lineStartOffset lines n + (lines.getD n []).length, newLine⟩] =
    joinNl (lines.set n newLine) := by
  obtain ⟨hdec, hlen⟩ := list_decompose_at lines n [] hn
  have h := applyChanges_single_line (lines.take n) (lines.getD n []) newLine
    (lines.drop (n + 1))
  rw [← hdec, hlen] at h
  rw [List.set_eq_take_append_cons_drop, if_pos hn]
  exact h

/-- C7: for every text whose line `n` matches the checkbox pattern
`^(\s*)- (\[[ x]\]) (.*)$` (with the `isChecked` argument reflecting the
line's current state), `toggleCheckbox` emits one single-range edit that
replaces exactly that line with the same line whose box is flipped
(`[ ]` ↔ `[x]`); applying the transaction yields the document with line
`n` replaced and every other line unchanged. -/
theorem claim_C7_toggle_checkbox (text : Str) (n : Nat) (ind st cont : Str)
    (hn : n < (splitLines text).length)
    (h : checkboxLineParse ((splitLines text).getD n []) = some (ind, st, cont)) :
    toggleCheckbox text n (decide (st = "[x]".toList)) =
      some ⟨lineStartOffset (splitLines text) n,
            lineStartOffset (splitLines text) n +
              ((splitLines text).getD n []).length,
            ind ++ "- ".toList ++
              (if st = "[x]".toList then "[ ]".toList else "[x]".toList) ++
              ' ' :: cont⟩ ∧
    applyChanges text
      [⟨lineStartOffset (splitLines text) n,
        lineStartOffset (splitLines text) n +
          ((splitLines text).getD n []).length,
        ind ++ "- ".toList ++
          (if st = "[x]".toList then "[ ]".toList else "[x]".toList) ++
          ' ' :: cont⟩] =
      joinNl ((splitLines text).set n (ind ++ "- ".toList ++
        (if st = "[x]".toList then "[ ]".toList else "[x]".toList) ++
        ' ' :: cont)) := by
  constructor
  · unfold toggleCheckbox
    rw [if_neg (by omega)]
    dsimp only
    rw [h]
    by_cases hst : st = "[x]".toList
    · simp [hst]
    · simp [hst]
  · have hmain := applyChanges_set_line (splitLines text) n
      (ind ++ "- ".toList ++
        (if st = "[x]".toList then "[ ]".toList else "[x]".toList) ++
        ' ' :: cont) hn
    exact ((congrArg (fun s => applyChanges s
        [⟨lineStartOffset (splitLines text) n,
          lineStartOffset (splitLines text) n +
            ((splitLines text).getD n []).length,
          ind ++ "- ".toList ++
            (if st = "[x]".toList then "[ ]".toList else "[x]".toList) ++
            ' ' :: cont⟩])
      (joinNl_splitLines text)).symm).trans hmain

/-- C7 witness at the spec's scenario: on `"- [ ] task"`,
`toggleCheckbox 0` yields the single edit replacing the whole line, and
applying it gives `"- [x] task"`. -/
theorem claim_C7_witness :
    toggleCheckbox "- [ ] task".toList 0 false =
      some ⟨0, 10, "- [x] task".toList⟩ ∧
    applyChanges "- [ ] task".toList [⟨0, 10, "- [x] task".toList⟩] =
      "- [x] task".toList := by
  have h := claim_C7_toggle_checkbox "- [ ] task".toList 0
    "".toList "[ ]".toList "task".toList (by decide) (by decide)
  constructor
  · have h1 := h.1
    rw [show (decide (("[ ]".toList : Str) = "[x]".toList)) = false from by
      decide] at h1
    rw [h1]
    decide
  · have h2 := h.2
    refine Eq.trans ?_ (h2.trans (by decide))
    decide

/-- C8: a toggle request for a line number at or beyond the number of
lines is a silent no-op for both `toggleListCollapse` and
`toggleCheckbox`: no change is dispatched (both functions are total, so
no exception can escape either). -/
theorem claim_C8_stale_line_noop (text : Str) (n : Nat) (b c : Bool)
    (h : (splitLines text).length ≤ n) :
    toggleListCollapse text n c = none ∧ toggleCheckbox text n b = none := by
  constructor
  · unfold toggleListCollapse
    rw [if_pos (by omega)]
  · unfold toggleCheckbox
    rw [if_pos (by omega)]

/-- C8 witness: on the one-line document `"- [ ] task"`, line 5 is out of
range and both toggles dispatch nothing. -/
theorem claim_C8_witness :
    (splitLines "- [ ] task".toList).length ≤ 5 ∧
    toggleListCollapse "- [ ] task".toList 5 true = none ∧
    toggleCheckbox "- [ ] task".toList 5 false = none :=
  ⟨by decide,
    (claim_C8_stale_line_noop "- [ ] task".toList 5 false true (by decide)).1,
    (claim_C8_stale_line_noop "- [ ] task".toList 5 false true (by decide)).2⟩

/-! ## Scanner pass shape lemmas -/

theorem jsOverlaps_eq_false {f t rf rt : Nat}
    (h : jsOverlaps f t rf rt = false) : t ≤ rf ∨ rt ≤ f := by
  simp only [jsOverlaps, Bool.or_eq_false_iff, Bool.and_eq_false_iff,
    decide_eq_false_iff_not, not_le, not_lt] at h
  omega

theorem mem_hiddenDecosOf {hr : List (Nat × Nat)} {d : Deco}
    (h : d ∈ hr.map fun r => (⟨r.1, r.2, .replace, .hiddenLine⟩ : Deco)) :
    d.kind = .hiddenLine ∧ (d.dfrom, d.dto) ∈ hr := by
  obtain ⟨r, hmem, rfl⟩ := List.mem_map.1 h
  exact ⟨rfl, hmem⟩

theorem kind_mem_codeDecosOf {sel : Option (Nat × Nat)} {rs : List (Nat × Nat)}
    {d : Deco}
    (h : d ∈ rs.map fun r =>
      if cursorInRange sel r.1 r.2 then (⟨r.1, r.2, .mark, .codeBlockEditing⟩ : Deco)
      else (⟨r.1, r.2, .replace, .codeBlock⟩ : Deco)) :
    d.kind = .codeBlockEditing ∨ d.kind = .codeBlock := by
  obtain ⟨r, _, rfl⟩ := List.mem_map.1 h
  by_cases hc : cursorInRange sel r.1 r.2 = true <;> simp [hc]

theorem kind_mem_markerDecosOf {rs : List (Nat × Nat)} {d : Deco}
    (h : d ∈ rs.map fun r => (⟨r.1, r.2, .replace, .collapseMarker⟩ : Deco)) :
    d.kind = .collapseMarker := by
  obtain ⟨r, _, rfl⟩ := List.mem_map.1 h
  rfl

theorem mem_listBulletDecos {lstruct : List (Nat × ListInfo)} {lines : List Str}
    {hr ms : List (Nat × Nat)} {d : Deco}
    (h : d ∈ listBulletDecos lstruct lines hr ms) :
    d.kind = .listBullet ∧ ∀ q ∈ hr, jsOverlaps d.dfrom d.dto q.1 q.2 = false := by
  simp only [listBulletDecos, List.mem_filterMap] at h
  obtain ⟨r, hmem, heq⟩ := h
  by_cases hb : (((lstruct.lookup (lineNumberOf lines r.1)).getD
      ⟨false, false, false⟩).shouldHide ||
      hr.any fun q => jsOverlaps r.1 r.2 q.1 q.2) = true
  · rw [if_pos hb] at heq
    cases heq
  · rw [if_neg hb] at heq
    injection heq with h2
    subst h2
    refine ⟨rfl, ?_⟩
    intro q hq
    cases hjs : jsOverlaps r.1 r.2 q.1 q.2 with
    | false => rfl
    | true =>
      exfalso
      apply hb
      rw [Bool.or_eq_true]
      exact Or.inr (List.any_eq_true.2 ⟨q, hq, hjs⟩)

theorem mem_checkboxDecos {hr ms : List (Nat × Nat)} {d : Deco}
    (h : d ∈ checkboxDecos hr ms) :
    d.kind = .checkbox ∧ ∀ q ∈ hr, jsOverlaps d.dfrom d.dto q.1 q.2 = false := by
  simp only [checkboxDecos, List.mem_filterMap] at h
  obtain ⟨r, hmem, heq⟩ := h
  by_cases hb : (hr.any fun q => jsOverlaps r.1 r.2 q.1 q.2) = true
  · rw [if_pos hb] at heq
    cases heq
  · rw [if_neg hb] at heq
    injection heq with h2
    subst h2
    refine ⟨rfl, ?_⟩
    intro q hq
    cases hjs : jsOverlaps r.1 r.2 q.1 q.2 with
    | false => rfl
    | true => exact absurd (List.any_eq_true.2 ⟨q, hq, hjs⟩) hb

theorem kind_mem_multiImagePass {sel : Option (Nat × Nat)} {ols : List (Nat × Str)}
    {d : Deco} (h : d ∈ (multiImagePass sel ols).map Prod.fst) :
    d.kind = .multiImageEditing ∨ d.kind = .multiImage := by
  induction ols with
  | nil => simp [multiImagePass] at h
  | cons ol rest ih =>
    simp only [multiImagePass, List.map_append, List.mem_append] at h
    rcases h with h | h
    · split at h
      · split at h
        · simp only [List.map_cons, List.map_nil, List.mem_singleton] at h
          subst h
          exact Or.inl rfl
        · simp only [List.map_cons, List.map_nil, List.mem_singleton] at h
          subst h
          exact Or.inr rfl
      · simp at h
    · exact ih h

theorem kind_mem_imageDecos {sel : Option (Nat × Nat)} {ek wk : DecorationKind}
    {kept : List (Nat × Nat)} {d : Deco}
    (h : d ∈ imageDecos sel ek wk kept) : d.kind = ek ∨ d.kind = wk := by
  simp only [imageDecos, List.mem_map] at h
  obtain ⟨r, _, rfl⟩ := h
  by_cases hc : cursorInRange sel r.1 r.2 = true <;> simp [hc]

theorem kind_mem_internalLinkDecos {special ms : List (Nat × Nat)} {d : Deco}
    (h : d ∈ internalLinkDecos special ms) : d.kind = .internalLink := by
  simp only [internalLinkDecos, List.mem_filterMap] at h
  obtain ⟨r, _, heq⟩ := h
  split at heq
  · cases heq
  · injection heq with h2
    subst h2
    rfl

theorem kind_mem_markdownLinkDecos {sel : Option (Nat × Nat)}
    {ms : List (Nat × Nat)} {d : Deco}
    (h : d ∈ markdownLinkDecos sel ms) :
    d.kind = .markdownLinkEditing ∨ d.kind = .markdownLink := by
  simp only [markdownLinkDecos, List.mem_map] at h
  obtain ⟨r, _, rfl⟩ := h
  by_cases hc : cursorInRange sel r.1 r.2 = true <;> simp [hc]

theorem kind_mem_urlDecos {ex ms : List (Nat × Nat)} {d : Deco}
    (h : d ∈ urlDecos ex ms) : d.kind = .urlLink := by
  simp only [urlDecos, List.mem_filterMap] at h
  obtain ⟨r, _, heq⟩ := h
  split at heq
  · cases heq
  · injection heq with h2
    subst h2
    rfl

theorem mem_scanPasses_hidden {text : Str} {sel : Option (Nat × Nat)} {h : Deco}
    (hm : h ∈ scanPasses text sel) (hk : h.kind = .hiddenLine) :
    (h.dfrom, h.dto) ∈ hiddenPass (parseListStructure text) (splitLines text) 0 0 := by
  simp only [scanPasses, List.mem_append] at hm
  rcases hm with ((((((((((hm | hm) | hm) | hm) | hm) | hm) | hm) | hm) | hm) | hm) | hm)
  · exact (mem_hiddenDecosOf hm).2
  · rcases kind_mem_codeDecosOf hm with h1 | h1 <;>
      (rw [hk] at h1; exact absurd h1 (by decide))
  · have h1 := kind_mem_markerDecosOf hm
    rw [hk] at h1
    exact absurd h1 (by decide)
  · have h1 := (mem_listBulletDecos hm).1
    rw [hk] at h1
    exact absurd h1 (by decide)
  · have h1 := (mem_checkboxDecos hm).1
    rw [hk] at h1
    exact absurd h1 (by decide)
  · rcases kind_mem_multiImagePass hm with h1 | h1 <;>
      (rw [hk] at h1; exact absurd h1 (by decide))
  · rcases kind_mem_imageDecos hm with h1 | h1 <;>
      (rw [hk] at h1; exact absurd h1 (by decide))
  · rcases kind_mem_imageDecos hm with h1 | h1 <;>
      (rw [hk] at h1; exact absurd h1 (by decide))
  · have h1 := kind_mem_internalLinkDecos hm
    rw [hk] at h1
    exact absurd h1 (by decide)
  · rcases kind_mem_markdownLinkDecos hm with h1 | h1 <;>
      (rw [hk] at h1; exact absurd h1 (by decide))
  · have h1 := kind_mem_urlDecos hm
    rw [hk] at h1
    exact absurd h1 (by decide)

theorem mem_scanPasses_bullet_checkbox {text : Str} {sel : Option (Nat × Nat)}
    {d : Deco} (hm : d ∈ scanPasses text sel)
    (hk : d.kind = .listBullet ∨ d.kind = .checkbox) :
    ∀ q ∈ hiddenPass (parseListStructure text) (splitLines text) 0 0,
      jsOverlaps d.dfrom d.dto q.1 q.2 = false := by
  simp only [scanPasses, List.mem_append] at hm
  rcases hm with ((((((((((hm | hm) | hm) | hm) | hm) | hm) | hm) | hm) | hm) | hm) | hm)
  · have h1 := (mem_hiddenDecosOf hm).1
    rcases hk with hk | hk <;> (rw [hk] at h1; exact absurd h1 (by decide))
  · rcases kind_mem_codeDecosOf hm with h1 | h1 <;> rcases hk with hk | hk <;>
      (rw [hk] at h1; exact absurd h1 (by decide))
  · have h1 := kind_mem_markerDecosOf hm
    rcases hk with hk | hk <;> (rw [hk] at h1; exact absurd h1 (by decide))
  · exact (mem_listBulletDecos hm).2
  · exact (mem_checkboxDecos hm).2
  · rcases kind_mem_multiImagePass hm with h1 | h1 <;> rcases hk with hk | hk <;>
      (rw [hk] at h1; exact absurd h1 (by decide))
  · rcases kind_mem_imageDecos hm with h1 | h1 <;> rcases hk with hk | hk <;>
      (rw [hk] at h1; exact absurd h1 (by decide))
  · rcases kind_mem_imageDecos hm with h1 | h1 <;> rcases hk with hk | hk <;>
      (rw [hk] at h1; exact absurd h1 (by decide))
  · have h1 := kind_mem_internalLinkDecos hm
    rcases hk with hk | hk <;> (rw [hk] at h1; exact absurd h1 (by decide))
  · rcases kind_mem_markdownLinkDecos hm with h1 | h1 <;> rcases hk with hk | hk <;>
      (rw [hk] at h1; exact absurd h1 (by decide))
  · have h1 := kind_mem_urlDecos hm
    rcases hk with hk | hk <;> (rw [hk] at h1; exact absurd h1 (by decide))

/-- C4, counterexample: on `"- p<!--COLLAPSED-->\n  - c<!--HIDDEN-->"` with
no selection, `scanForLinks` returns two replace-style decorations with
overlapping ranges: the hidden second line `[20, 38)` and the `HIDDEN`
marker `[25, 38)` inside it (`max 20 25 < min 38 38`), refuting the
non-overlap half of the claim. -/
theorem claim_C4_counterexample :
    scanForLinks ("- p<!--COLLAPSED-->\n  - c<!--HIDDEN-->".toList) none [] =
      [⟨0, 2, .replace, .listBullet⟩,
       ⟨3, 19, .replace, .collapseMarker⟩,
       ⟨20, 38, .replace, .hiddenLine⟩,
       ⟨25, 38, .replace, .collapseMarker⟩] ∧
    max 20 25 < min 38 38 := by
  constructor
  · decide
  · decide

/-- C4, amended: for every text, selection and collapse-state map the
output of `scanForLinks` is sorted by start offset, and the replace
widgets of the bullet and checkbox passes never overlap a hidden-line
replace range (the overlap guard the scanner does enforce); overlap
between other replace pairs, e.g. collapse markers inside hidden lines,
is possible. -/
theorem claim_C4_amended (text : Str) (sel : Option (Nat × Nat))
    (cs : List (Nat × Bool)) :
    List.Pairwise (fun a b : Deco => a.dfrom ≤ b.dfrom) (scanForLinks text sel cs) ∧
    ∀ d ∈ scanForLinks text sel cs, ∀ h ∈ scanForLinks text sel cs,
      d.kind = .listBullet ∨ d.kind = .checkbox → h.kind = .hiddenLine →
      d.dto ≤ h.dfrom ∨ h.dto ≤ d.dfrom := by
  constructor
  · unfold scanForLinks
    haveI : IsTotal Deco (fun a b => a.dfrom ≤ b.dfrom) :=
      ⟨fun a b => Nat.le_total a.dfrom b.dfrom⟩
    haveI : IsTrans Deco (fun a b => a.dfrom ≤ b.dfrom) :=
      ⟨fun _ _ _ h1 h2 => Nat.le_trans h1 h2⟩
    exact List.sorted_insertionSort _ (scanPasses text sel)
  · intro d hd h hh hdk hhk
    unfold scanForLinks at hd hh
    rw [(List.perm_insertionSort _ _).mem_iff] at hd hh
    have hq := mem_scanPasses_hidden hh hhk
    have hov := mem_scanPasses_bullet_checkbox hd hdk (h.dfrom, h.dto) hq
    exact jsOverlaps_eq_false hov

/-- C4, witness for the amended statement: on the counterexample document
the bullet widget `[0, 2)` and the hidden line `[20, 38)` are both in the
output and the amended theorem yields their disjointness. -/
theorem claim_C4_witness :
    (⟨0, 2, .replace, .listBullet⟩ : Deco) ∈
      scanForLinks ("- p<!--COLLAPSED-->\n  - c<!--HIDDEN-->".toList) none [] ∧
    (⟨20, 38, .replace, .hiddenLine⟩ : Deco) ∈
      scanForLinks ("- p<!--COLLAPSED-->\n  - c<!--HIDDEN-->".toList) none [] ∧
    ((2 : Nat) ≤ 20 ∨ (38 : Nat) ≤ 0) :=
  ⟨by decide, by decide,
    (claim_C4_amended ("- p<!--COLLAPSED-->\n  - c<!--HIDDEN-->".toList) none []).2
      ⟨0, 2, .replace, .listBullet⟩ (by decide)
      ⟨20, 38, .replace, .hiddenLine⟩ (by decide) (Or.inl rfl) rfl⟩

/-! ## Save mutual exclusion -/

theorem saveStep_inv {s : SaveState} (hs : SaveInv s) (e : SaveEvent) :
    SaveInv (saveStep s e) := by
  obtain ⟨hlen, hiff⟩ := hs
  cases e with
  | invoke hasFile =>
    simp only [saveStep]
    by_cases hc : (!hasFile || s.isUpdating) = true
    · rw [if_pos hc]
      exact ⟨hlen, hiff⟩
    · rw [if_neg hc]
      refine ⟨?_, by simp⟩
      have hup : s.isUpdating = false := by
        cases hu : s.isUpdating
        · rfl
        · exact absurd (by rw [hu, Bool.or_true]) hc
      have : s.tasks = [] := by
        by_contra hne
        rw [hiff.2 hne] at hup
        cases hup
      simp [this]
  | readDone i changed =>
    simp only [saveStep]
    cases htask : s.tasks[i]? with
    | none => exact ⟨hlen, hiff⟩
    | some p =>
      cases p with
      | writing => exact ⟨hlen, hiff⟩
      | reading =>
        have hne : s.tasks ≠ [] := by
          intro h0
          rw [h0] at htask
          cases htask
        have hup : s.isUpdating = true := hiff.2 hne
        have hi : i = 0 := by
          obtain ⟨h1, -⟩ := List.getElem?_eq_some_iff.1 htask
          omega
        obtain ⟨t, ht⟩ := List.length_eq_one.1 (show s.tasks.length = 1 by
          have h2 : s.tasks.length ≠ 0 :=
            fun h0 => hne (List.eq_nil_of_length_eq_zero h0)
          omega)
        subst hi
        cases changed with
        | true =>
          rw [if_pos rfl, ht]
          exact ⟨by simp, by simp [hup]⟩
        | false =>
          rw [if_neg (by simp), ht]
          exact ⟨by simp, by simp⟩
  | writeDone i =>
    simp only [saveStep]
    cases htask : s.tasks[i]? with
    | none => exact ⟨hlen, hiff⟩
    | some p =>
      cases p with
      | reading => exact ⟨hlen, hiff⟩
      | writing =>
        have hne : s.tasks ≠ [] := by
          intro h0
          rw [h0] at htask
          cases htask
        have hi : i = 0 := by
          obtain ⟨h1, -⟩ := List.getElem?_eq_some_iff.1 htask
          omega
        obtain ⟨t, ht⟩ := List.length_eq_one.1 (show s.tasks.length = 1 by
          have h2 : s.tasks.length ≠ 0 :=
            fun h0 => hne (List.eq_nil_of_length_eq_zero h0)
          omega)
        subst hi
        rw [ht]
        exact ⟨by simp, by simp⟩

theorem saveRun_inv (es : List SaveEvent) : SaveInv (saveRun es) := by
  suffices h : ∀ s : SaveState, SaveInv s → SaveInv (es.foldl saveStep s) by
    exact h saveInit ⟨by simp [saveInit], by simp [saveInit]⟩
  induction es with
  | nil => exact fun s hs => hs
  | cons e rest ih =>
    intro s hs
    exact ih (saveStep s e) (saveStep_inv hs e)

/-- C9: in every state reachable by any sequence of save requests and
await completions, at most one write is in flight (indeed at most one
invocation of `saveMarkdown` is in flight at all), and a save request
arriving while `isUpdating` is set leaves the state completely unchanged:
it returns immediately without reading, serializing or writing, and is
never queued or retried. -/
theorem claim_C9_save_mutual_exclusion (es : List SaveEvent) (b : Bool) :
    ((saveRun es).tasks.filter fun p => p == SavePhase.writing).length ≤ 1 ∧
    ((saveRun es).isUpdating = true →
      saveStep (saveRun es) (.invoke b) = saveRun es) := by
  obtain ⟨hlen, hiff⟩ := saveRun_inv es
  constructor
  · exact le_trans (List.length_filter_le _ _) hlen
  · intro hb
    simp [saveStep, hb]

/-- C9 witness: after one save request with a bound file the flag is set,
the write-in-flight count is at most one, and a second request is a
no-op. -/
theorem claim_C9_witness :
    ((saveRun [SaveEvent.invoke true]).tasks.filter
      fun p => p == SavePhase.writing).length ≤ 1 ∧
    saveStep (saveRun [SaveEvent.invoke true]) (SaveEvent.invoke true) =
      saveRun [SaveEvent.invoke true] :=
  ⟨(claim_C9_save_mutual_exclusion [SaveEvent.invoke true] true).1,
   (claim_C9_save_mutual_exclusion [SaveEvent.invoke true] true).2 (by decide)⟩

end SurveyNote
